import Mathlib

/-!
Verification of the stardust_db storage engine core.

This file gives a shallow embedding, in Lean 4, of the parts of the
stardust_db source that the specification talks about:

* the value model and coercions (`src/data_types.rs`),
* the row codec (`src/storage.rs`),
* the expression evaluator (`src/interpreter.rs`),
* the constraint engine and foreign-key checkers
  (`src/table_handler.rs`, `src/foreign_key.rs`),
* result sorting (`src/relation.rs`).

Machine integers of the source (`i64`, `u16`, `u64`) are modelled with
`Int`/`Nat` plus explicit range conditions and wrap-around where the
source can overflow.  Byte strings are modelled as `List Nat` with each
entry a byte value.  Rust `String`s are modelled as their list of
Unicode scalar values (`List Char`); the UTF-8 encoding used by the row
codec is made explicit.
-/

namespace StardustDb

/-! ## Byte-level utilities -/


/-- Big-endian bytes of a natural number, `n` bytes wide (the value is
taken modulo `256 ^ n`, like a narrowing integer cast). -/
def natToBeBytes : Nat → Nat → List Nat
  | 0, _ => []
  | n + 1, v => natToBeBytes n (v / 256) ++ [v % 256]

/-- Read a big-endian byte list as a natural number. -/
def beBytesToNat (l : List Nat) : Nat :=
  l.foldl (fun acc b => acc * 256 + b) 0

/-- `i64::to_be_bytes`: two's-complement big-endian encoding. -/
def intToBeBytes (i : Int) : List Nat :=
  natToBeBytes 8 (i % (2 ^ 64)).toNat

/-- `i64::from_be_bytes`: decode 8 big-endian bytes as a signed value. -/
def beBytesToInt (l : List Nat) : Int :=
  let u := beBytesToNat l
  if u < 2 ^ 63 then (u : Int) else (u : Int) - 2 ^ 64

/-- `copy_from_slice` into a byte vector at `pos`. -/
def writeBytes (row : List Nat) (pos : Nat) (src : List Nat) : List Nat :=
  row.take pos ++ src ++ row.drop (pos + src.length)

/-- `row[pos] |= v` on a byte vector. -/
def orByteAt (row : List Nat) (pos : Nat) (v : Nat) : List Nat :=
  row.take pos ++ [row.getD pos 0 ||| v] ++ row.drop (pos + 1)

/-! ## UTF-8

Rust `String`s are valid UTF-8 byte strings.  The embedding keeps the
character list and makes the byte encoding explicit: `utf8Encode` is the
byte view taken by `String::as_bytes`, `utf8Decode` is
`String::from_utf8` (returning `none` on invalid input). -/


/-- Standard UTF-8 encoding of one Unicode scalar value. -/
def utf8EncodeChar (c : Char) : List Nat :=
  let v := c.toNat
  if v < 0x80 then [v]
  else if v < 0x800 then [0xC0 + v / 64, 0x80 + v % 64]
  else if v < 0x10000 then
    [0xE0 + v / 4096, 0x80 + v / 64 % 64, 0x80 + v % 64]
  else
    [0xF0 + v / 262144, 0x80 + v / 4096 % 64, 0x80 + v / 64 % 64, 0x80 + v % 64]

/-- UTF-8 encoding of a character list (`String::as_bytes`). -/
def utf8Encode (s : List Char) : List Nat :=
  s.flatMap utf8EncodeChar

/-- Continuation of a 2-byte UTF-8 sequence with lead byte `b`. -/
def utf8Cont2 (b : Nat) : List Nat → Option (Char × List Nat)
  | b1 :: rest1 =>
    if (0x80 ≤ b1 ∧ b1 < 0xC0) ∧ 0x80 ≤ (b - 0xC0) * 64 + (b1 - 0x80) then
      some (Char.ofNat ((b - 0xC0) * 64 + (b1 - 0x80)), rest1)
    else none
  | _ => none

/-- Continuation of a 3-byte UTF-8 sequence with lead byte `b`. -/
def utf8Cont3 (b : Nat) : List Nat → Option (Char × List Nat)
  | b1 :: b2 :: rest2 =>
    if (0x80 ≤ b1 ∧ b1 < 0xC0) ∧ (0x80 ≤ b2 ∧ b2 < 0xC0) ∧
        0x800 ≤ (b - 0xE0) * 4096 + (b1 - 0x80) * 64 + (b2 - 0x80) ∧
        ¬ (0xD800 ≤ (b - 0xE0) * 4096 + (b1 - 0x80) * 64 + (b2 - 0x80) ∧
           (b - 0xE0) * 4096 + (b1 - 0x80) * 64 + (b2 - 0x80) < 0xE000) then
      some (Char.ofNat ((b - 0xE0) * 4096 + (b1 - 0x80) * 64 + (b2 - 0x80)), rest2)
    else none
  | _ => none

/-- Continuation of a 4-byte UTF-8 sequence with lead byte `b`. -/
def utf8Cont4 (b : Nat) : List Nat → Option (Char × List Nat)
  | b1 :: b2 :: b3 :: rest3 =>
    if (0x80 ≤ b1 ∧ b1 < 0xC0) ∧ (0x80 ≤ b2 ∧ b2 < 0xC0) ∧ (0x80 ≤ b3 ∧ b3 < 0xC0) ∧
        0x10000 ≤ (b - 0xF0) * 262144 + (b1 - 0x80) * 4096 + (b2 - 0x80) * 64 + (b3 - 0x80) ∧
        (b - 0xF0) * 262144 + (b1 - 0x80) * 4096 + (b2 - 0x80) * 64 + (b3 - 0x80) < 0x110000 then
      some (Char.ofNat ((b - 0xF0) * 262144 + (b1 - 0x80) * 4096 + (b2 - 0x80) * 64 + (b3 - 0x80)),
        rest3)
    else none
  | _ => none

/-- Decode one UTF-8 sequence from the front of a byte list, rejecting
truncated and overlong sequences, surrogates and out-of-range values. -/
def utf8DecodeStep : List Nat → Option (Char × List Nat)
  | [] => none
  | b :: rest =>
    if b < 0x80 then some (Char.ofNat b, rest)
    else if b < 0xC0 then none
    else if b < 0xE0 then utf8Cont2 b rest
    else if b < 0xF0 then utf8Cont3 b rest
    else if b < 0xF8 then utf8Cont4 b rest
    else none

/-- Fuel-driven decode loop; every step consumes at least one byte, so
the fuel supplied by `utf8Decode` (the byte count) never runs out. -/
def utf8DecodeAux : Nat → List Nat → Option (List Char)
  | _, [] => some []
  | 0, _ :: _ => none
  | fuel + 1, b :: bs =>
    match utf8DecodeStep (b :: bs) with
    | some (c, rest) => (utf8DecodeAux fuel rest).map (c :: ·)
    | none => none

/-- UTF-8 decoding (`String::from_utf8`): `none` on invalid input. -/
def utf8Decode (l : List Nat) : Option (List Char) :=
  utf8DecodeAux l.length l

/-! ## Value model (`src/data_types.rs`) -/


/-- `Error` / `ExecutionError`: the error constructors reachable from the
embedded functions. -/
inductive DbError
  | internal (msg : String)
  | columnExists (name : String)
  | wrongNumColumns (expected actual : Nat)
  | noColumn (name : String)
  | nullConstraintFailed (name : String)
  | uniqueConstraintFailed (name : String)
  | checkConstraintFailed (name : String)
  | foreignKeyConstraintFailed (name : String)
deriving DecidableEq, Repr

/-- `i64::MIN`. -/
def i64Min : Int := -(2 ^ 63)

/-- `i64::MAX`. -/
def i64Max : Int := 2 ^ 63 - 1

/-- `Type` in `data_types.rs` (renamed: `Type` is reserved in Lean). -/
inductive DataType
  | Integer
  | String
deriving DecidableEq, Repr

/-- `Type::size`: byte width of the fixed-size representation. -/
def DataType.size : DataType → Option Nat
  | .Integer => some 8
  | .String => none

/-- `char::is_whitespace`: the Unicode `White_Space` code points. -/
def rustIsWhitespace (c : Char) : Bool :=
  c.toNat ∈ [0x09, 0x0A, 0x0B, 0x0C, 0x0D, 0x20, 0x85, 0xA0, 0x1680,
    0x2000, 0x2001, 0x2002, 0x2003, 0x2004, 0x2005, 0x2006, 0x2007,
    0x2008, 0x2009, 0x200A, 0x2028, 0x2029, 0x202F, 0x205F, 0x3000]

/-- Saturation value returned by `string_to_int` on overflow. -/
def stiSaturate (sign : Bool) : Int :=
  if sign then i64Min else i64Max

/-- The digit loop of `string_to_int`: accumulate decimal digits with
`checked_mul`/`checked_add`, stopping at the first non-digit and
saturating on `i64` overflow. -/
def stiLoop (sign : Bool) : List Char → Int → Int
  | [], result => if sign then -result else result
  | c :: cs, result =>
    if '0' ≤ c ∧ c ≤ '9' then
      if result * 10 < i64Min ∨ i64Max < result * 10 then stiSaturate sign
      else
        if result * 10 + ((c.toNat : Int) - ('0'.toNat : Int)) < i64Min ∨
            i64Max < result * 10 + ((c.toNat : Int) - ('0'.toNat : Int)) then
          stiSaturate sign
        else stiLoop sign cs (result * 10 + ((c.toNat : Int) - ('0'.toNat : Int)))
    else if sign then -result else result

/-- `string_to_int` in `data_types.rs`: trim leading whitespace, accept
one optional leading minus sign, read decimal digits, saturate on
overflow; no digits gives `0`. -/
def string_to_int (string : List Char) : Int :=
  match string.dropWhile rustIsWhitespace with
  | [] => 0
  | c :: rest =>
    if c = '-' then stiLoop true rest 0
    else stiLoop false (c :: rest) 0

/-- `TypeContents`: a non-null value.  A Rust `String` is modelled as
its character list. -/
inductive TypeContents
  | Integer (i : Int)
  | String (s : List Char)
deriving DecidableEq, Repr

/-- `impl From<&TypeContents> for IntegerStorage`. -/
def TypeContents.toInteger : TypeContents → Int
  | .Integer i => i
  | .String s => string_to_int s

/-- `impl From<TypeContents> for String` (`i64::to_string` is Lean's
decimal `toString`). -/
def TypeContents.toStringChars : TypeContents → List Char
  | .String s => s
  | .Integer i => (toString i).data

/-- `TypeContents::cast`. -/
def TypeContents.cast (t : TypeContents) : DataType → TypeContents
  | .Integer => .Integer t.toInteger
  | .String => .String t.toStringChars

/-- `TypeContents::is_true`: `IntegerStorage::from(self) > 0`. -/
def TypeContents.is_true (t : TypeContents) : Bool :=
  0 < t.toInteger

/-- `TypeContents::encode`: the byte image and its type. -/
def TypeContents.encode : TypeContents → List Nat × DataType
  | .Integer i => (intToBeBytes i, .Integer)
  | .String s => (utf8Encode s, .String)

/-- `Type::decode`: parse a byte slice back into typed contents. -/
def DataType.decode : DataType → List Nat → Except DbError TypeContents
  | .Integer, data =>
    if data.length = 8 then .ok (.Integer (beBytesToInt data))
    else .error (.internal "Incorrect number of bytes of Integer Decode")
  | .String, data =>
    match utf8Decode data with
    | some s => .ok (.String s)
    | none => .error (.internal "Could not decode bytes to string")

/-- `Value`: nullable typed value. -/
inductive Value
  | Null
  | TypedValue (t : TypeContents)
deriving DecidableEq, Repr

/-- `Type::resolve_value`: `Null` erases to `None`, other values are
cast to the column type. -/
def DataType.resolve_value (t : DataType) : Value → Option TypeContents
  | .Null => none
  | .TypedValue c => some (c.cast t)

/-- `Value::cast`. -/
def Value.cast : Value → DataType → Value
  | .Null, _ => .Null
  | .TypedValue c, t => .TypedValue (c.cast t)

/-- `Value::assume_integer`: an `Error::Internal` on anything but an
integer, including `Null`. -/
def Value.assume_integer : Value → Except DbError Int
  | .TypedValue (.Integer i) => .ok i
  | _ => .error (.internal "Assumed integer")

/-- `Value::is_null`. -/
def Value.is_null : Value → Bool
  | .Null => true
  | _ => false

/-- `TruthValue`: three-valued logic. -/
inductive TruthValue
  | True
  | False
  | Unknown
deriving DecidableEq, Repr

/-- `TruthValue::and`, with the source's match-arm order: `(True, True)`
first, then the `Unknown` arms, then everything else `False`. -/
def TruthValue.and : TruthValue → TruthValue → TruthValue
  | .True, .True => .True
  | .Unknown, _ => .Unknown
  | _, .Unknown => .Unknown
  | _, _ => .False

/-- `TruthValue::or`, with the source's match-arm order: `(False, False)`
first, then the `True` arms, then everything else `Unknown`. -/
def TruthValue.or : TruthValue → TruthValue → TruthValue
  | .False, .False => .False
  | .True, _ => .True
  | _, .True => .True
  | _, _ => .Unknown

/-- `Value::get_truth`. -/
def Value.get_truth : Value → TruthValue
  | .Null => .Unknown
  | .TypedValue c => if c.is_true then .True else .False

/-- `Value::is_true`: `Unknown` collapses to false. -/
def Value.is_true : Value → Bool
  | .Null => false
  | .TypedValue c => c.is_true

/-- `impl From<TruthValue> for Value`. -/
def TruthValue.toValue : TruthValue → Value
  | .True => .TypedValue (.Integer 1)
  | .False => .TypedValue (.Integer 0)
  | .Unknown => .Null

/-- `Value::and`. -/
def Value.and (a b : Value) : Value :=
  (a.get_truth.and b.get_truth).toValue

/-- `Value::or`. -/
def Value.or (a b : Value) : Value :=
  (a.get_truth.or b.get_truth).toValue

/-- `Comparison`: result of a three-valued comparison. -/
inductive Comparison
  | Unknown
  | LessThan
  | Equal
  | GreaterThan
deriving DecidableEq, Repr

/-- `impl From<Ordering> for Comparison`. -/
def Comparison.fromOrdering : Ordering → Comparison
  | .eq => .Equal
  | .gt => .GreaterThan
  | .lt => .LessThan

/-- Rust `Ord` on `String`: lexicographic on the UTF-8 bytes, which for
valid UTF-8 coincides with lexicographic comparison of scalar values. -/
def cmpCharList : List Char → List Char → Ordering
  | [], [] => .eq
  | [], _ :: _ => .lt
  | _ :: _, [] => .gt
  | a :: as₁, b :: bs₁ =>
    if a.toNat < b.toNat then .lt
    else if b.toNat < a.toNat then .gt
    else cmpCharList as₁ bs₁

/-- Rust `Ord` on `i64`. -/
def cmpInt (a b : Int) : Ordering :=
  if a < b then .lt else if a = b then .eq else .gt

/-- `Value::compare`: `Null` is incomparable; mixed string/integer
comparison coerces the string side with `string_to_int`. -/
def Value.compare : Value → Value → Comparison
  | .Null, _ => .Unknown
  | _, .Null => .Unknown
  | .TypedValue (.String a), .TypedValue (.String b) =>
    .fromOrdering (cmpCharList a b)
  | .TypedValue (.Integer a), .TypedValue (.Integer b) =>
    .fromOrdering (cmpInt a b)
  | .TypedValue (.String s), .TypedValue (.Integer i) =>
    .fromOrdering (cmpInt (string_to_int s) i)
  | .TypedValue (.Integer i), .TypedValue (.String s) =>
    .fromOrdering (cmpInt i (string_to_int s))

/-- `ComparisonOp` from the statement AST. -/
inductive ComparisonOp
  | Eq
  | NotEq
  | Gt
  | Lt
  | GtEq
  | LtEq
deriving DecidableEq, Repr

/-- `Comparison::get_value`: `Unknown` gives `Null`, otherwise a
boolean 0/1 integer. -/
def Comparison.get_value (c : Comparison) (op : ComparisonOp) : Value :=
  match c with
  | .Unknown => .Null
  | _ =>
    let b : Bool :=
      match op with
      | .Eq => c = .Equal
      | .NotEq => c = .GreaterThan ∨ c = .LessThan
      | .Gt => c = .GreaterThan
      | .Lt => c = .LessThan
      | .GtEq => c = .Equal ∨ c = .GreaterThan
      | .LtEq => c = .Equal ∨ c = .LessThan
    if b then .TypedValue (.Integer 1) else .TypedValue (.Integer 0)

/-- `Comparison::is_equal`. -/
def Comparison.is_equal : Comparison → Bool
  | .Equal => true
  | _ => false

/-- `Comparison::is_equal_or_null`. -/
def Comparison.is_equal_or_null : Comparison → Bool
  | .Equal => true
  | .Unknown => true
  | _ => false

instance {e a : Type} [DecidableEq e] [DecidableEq a] :
    DecidableEq (Except e a) := fun x y =>
  match x, y with
  | .ok x1, .ok y1 => decidable_of_iff (x1 = y1) (by simp)
  | .error x1, .error y1 => decidable_of_iff (x1 = y1) (by simp)
  | .ok _, .error _ => isFalse (by simp)
  | .error _, .ok _ => isFalse (by simp)

/-! ## Row codec (`src/storage.rs`) -/


/-- `ColumnEntry`: type, fixed-field or directory offset, null-bit
index. -/
structure ColumnEntry where
  t : DataType
  position : Nat
  null_index : Nat
deriving DecidableEq, Repr

/-- `ColumnEntry::bitmask_index`: byte index and bit index of the
column's null bit. -/
def ColumnEntry.bitmask_index (e : ColumnEntry) : Nat × Nat :=
  (e.null_index / 8, e.null_index % 8)

/-- `Columns`: insertion-ordered schema (the `IndexMap` is modelled as
an association list) with the derived layout counters. -/
structure Columns where
  columns : List (String × ColumnEntry)
  sized_len : Nat
  sized_count : Nat
  unsized_count : Nat
deriving DecidableEq, Repr

/-- `Columns::new`. -/
def Columns.new : Columns :=
  ⟨[], 0, 0, 0⟩

/-- `Columns::contains_column`. -/
def Columns.contains_column (c : Columns) (column : String) : Bool :=
  c.columns.any (fun p => p.1 = column)

/-- `Columns::num_columns`. -/
def Columns.num_columns (c : Columns) : Nat :=
  c.columns.length

/-- `Columns::bitmask_size`: `ceil(sized_count / 8)`. -/
def Columns.bitmask_size (c : Columns) : Nat :=
  (c.sized_count + 7) / 8

/-- `Columns::bitmask_start`: the null bitmap begins right after the
fixed-size section. -/
def Columns.bitmask_start (c : Columns) : Nat :=
  c.sized_len

/-- `Columns::directory_start`: the directory begins after the bitmap. -/
def Columns.directory_start (c : Columns) : Nat :=
  c.sized_len + c.bitmask_size

/-- `Columns::fixed_len`: length of the row before variable payloads. -/
def Columns.fixed_len (c : Columns) : Nat :=
  c.sized_len + c.bitmask_size + c.unsized_count * 2

/-- `Columns::last_unsized_position`: directory slot of the last
variable-size column. -/
def Columns.last_unsized_position (c : Columns) : Nat :=
  c.directory_start + (c.unsized_count - 1) * 2

/-- `Columns::get_index`. -/
def Columns.get_index (c : Columns) (column : String) : Option Nat :=
  c.columns.findIdx? (fun p => p.1 = column)

/-- `Columns::add_column`: reject duplicates, lay out fixed-size columns
consecutively and give variable-size columns consecutive directory
slots. -/
def Columns.add_column (c : Columns) (name : String) (t : DataType) :
    Except DbError (Columns × Nat) :=
  if c.contains_column name then .error (.columnExists name)
  else
    let index := c.columns.length
    match t.size with
    | some s =>
      .ok ({ c with
        columns := c.columns ++ [(name, ⟨t, c.sized_len, c.sized_count⟩)],
        sized_len := c.sized_len + s,
        sized_count := c.sized_count + 1 }, index)
    | none =>
      .ok ({ c with
        columns := c.columns ++ [(name, ⟨t, c.unsized_count * 2, 0⟩)],
        unsized_count := c.unsized_count + 1 }, index)

/-- A schema built by repeated `add_column` from `Columns::new`, the way
every schema of the engine is constructed. -/
def buildColumns : List (String × DataType) → Except DbError Columns :=
  let rec go (c : Columns) : List (String × DataType) → Except DbError Columns
    | [] => .ok c
    | (name, t) :: rest => do
      let (c1, _) ← c.add_column name t
      go c1 rest
  go Columns.new

/-- `append_unsized`: point the directory slot at the current end of the
row (truncated to `u16`) and append the payload. -/
def append_unsized (dictionary_position : Nat) (bytes : List Nat)
    (row : List Nat) : List Nat :=
  writeBytes row dictionary_position (natToBeBytes 2 (row.length % 65536)) ++ bytes

/-- One iteration of the `generate_row` loop for a column entry and its
value. -/
def generateRowStep (c : Columns) (row : List Nat)
    (ev : ColumnEntry × Value) : List Nat :=
  let entry := ev.1
  let contents := entry.t.resolve_value ev.2
  match entry.t.size with
  | some _ =>
    match contents with
    | some contents =>
      let (index, bit) := entry.bitmask_index
      let row1 := orByteAt row (c.bitmask_start + index) (1 <<< bit)
      writeBytes row1 entry.position contents.encode.1
    | none => row
  | none =>
    match contents with
    | some contents =>
      append_unsized (c.directory_start + entry.position) contents.encode.1 row
    | none => row

/-- `Columns::generate_row`: encode a value list into a row byte
string. -/
def Columns.generate_row (c : Columns) (data : List Value) :
    Except DbError (List Nat) :=
  if c.columns.length ≠ data.length then
    .error (.wrongNumColumns c.columns.length data.length)
  else
    .ok (((c.columns.map Prod.snd).zip data).foldl (generateRowStep c)
      (List.replicate c.fixed_len 0))

/-- The scan in `get_unsized_data` that finds where a variable payload
ends: the first later non-zero directory slot, or the end of the row.
The loop advances by two bytes per step until it passes `end_position`,
so the structural counter supplied by `findUnsizedEnd` never reaches
zero before the loop's own exit condition. -/
def findUnsizedEndAux (row : List Nat) (end_position : Nat) :
    Nat → Nat → Nat
  | 0, _ => row.length
  | fuel + 1, next_start =>
    if next_start > end_position then row.length
    else
      if 0 < beBytesToNat ((row.drop next_start).take 2) then
        beBytesToNat ((row.drop next_start).take 2)
      else findUnsizedEndAux row end_position fuel (next_start + 2)

/-- The `loop` in `get_unsized_data`. -/
def findUnsizedEnd (row : List Nat) (end_position : Nat)
    (next_start : Nat) : Nat :=
  findUnsizedEndAux row end_position (end_position + 2 - next_start) next_start

/-- `get_unsized_data`: slice of the row holding a variable payload. -/
def get_unsized_data (dictionary_position end_position : Nat)
    (row : List Nat) : List Nat :=
  let e := findUnsizedEnd row end_position (dictionary_position + 2)
  let data_position := beBytesToNat ((row.drop dictionary_position).take 2)
  (row.drop data_position).take (e - data_position)

/-- `Columns::get_data` keyed by column index (`ColumnKey for usize`). -/
def Columns.get_data (c : Columns) (key : Nat) (row : List Nat) :
    Except DbError Value :=
  match c.columns[key]? with
  | none => .error (.internal "Could not get entry for index")
  | some (_, entry) =>
    match entry.t.size with
    | some s =>
      let (index, bit) := entry.bitmask_index
      if row.getD (c.bitmask_start + index) 0 &&& (1 <<< bit) = 0 then
        .ok .Null
      else
        (entry.t.decode ((row.drop entry.position).take s)).map Value.TypedValue
    | none =>
      let position := c.directory_start + entry.position
      if (row.drop position).take 2 = [0, 0] then
        .ok .Null
      else
        (entry.t.decode
          (get_unsized_data position c.last_unsized_position row)).map Value.TypedValue

/-! ## Layout description of an encoded row

`generate_row` fills a pre-allocated buffer imperatively.  The following
functions describe the resulting byte string compositionally — fixed
section, null bitmap, directory, payloads — and the layout theorem below
proves that `generate_row` produces exactly their concatenation. -/


/-- The bytes a value contributes (after the cast done by
`resolve_value`); `none` for `Null`. -/
def encValue (t : DataType) (v : Value) : Option (List Nat) :=
  (t.resolve_value v).map (fun c => c.encode.1)

/-- Values of the fixed-size (`Integer`) columns, in schema order. -/
def sizedVals (tvs : List (DataType × Value)) : List Value :=
  (tvs.filter (fun p => p.1.size.isSome)).map Prod.snd

/-- Values of the variable-size (`String`) columns, in schema order. -/
def unsizedVals (tvs : List (DataType × Value)) : List Value :=
  (tvs.filter (fun p => p.1.size.isNone)).map Prod.snd

/-- Fixed-size section: one 8-byte block per fixed column, zeros for
`Null`. -/
def fixedSpec : List Value → List Nat
  | [] => []
  | v :: rest =>
    (match encValue .Integer v with
      | some bs => bs
      | none => List.replicate 8 0) ++ fixedSpec rest

/-- A low-bit-first byte from up to eight bits. -/
def byteOfBits : List Bool → Nat
  | [] => 0
  | b :: rest => (if b then 1 else 0) + 2 * byteOfBits rest

/-- Null bitmap bytes: bit `i % 8` of byte `i / 8` is the `i`-th flag. -/
def bitmaskBytes (bits : List Bool) : List Nat :=
  (List.range ((bits.length + 7) / 8)).map
    (fun j => byteOfBits ((bits.drop (8 * j)).take 8))

/-- The non-null flags of the fixed columns. -/
def nullBitsOf (tvs : List (DataType × Value)) : List Bool :=
  (sizedVals tvs).map (fun v => (encValue .Integer v).isSome)

/-- Directory: one big-endian `u16` slot per variable column, `0` for
`Null`, otherwise the offset where the payload starts, advancing by the
payload length. -/
def dirSpec (q : Nat) : List Value → List Nat
  | [] => []
  | v :: rest =>
    match encValue .String v with
    | some bs => natToBeBytes 2 q ++ dirSpec (q + bs.length) rest
    | none => 0 :: 0 :: dirSpec q rest

/-- Variable payloads, packed back to back. -/
def paySpec : List Value → List Nat
  | [] => []
  | v :: rest =>
    (match encValue .String v with
      | some bs => bs
      | none => []) ++ paySpec rest

/-- Directory section of a whole row. -/
def dirSection (q : Nat) (tvs : List (DataType × Value)) : List Nat :=
  dirSpec q (unsizedVals tvs)

/-- Payload section of a whole row. -/
def payloadSection (tvs : List (DataType × Value)) : List Nat :=
  paySpec (unsizedVals tvs)

/-- Fixed section of a whole row. -/
def fixedSection (tvs : List (DataType × Value)) : List Nat :=
  fixedSpec (sizedVals tvs)

/-- Entries produced by successive `add_column` calls, starting from
`sc` fixed and `uc` variable columns already added. -/
def entriesFrom (sc uc : Nat) : List DataType → List ColumnEntry
  | [] => []
  | t :: ts =>
    match t.size with
    | some _ => ⟨t, 8 * sc, sc⟩ :: entriesFrom (sc + 1) uc ts
    | none => ⟨t, 2 * uc, 0⟩ :: entriesFrom sc (uc + 1) ts

/-- Number of fixed-size columns. -/
def sizedCountT (ts : List DataType) : Nat :=
  ts.countP (fun t => t.size.isSome)

/-- Number of variable-size columns. -/
def unsizedCountT (ts : List DataType) : Nat :=
  ts.countP (fun t => t.size.isNone)

def valueMatches : DataType → Value → Bool
  | _, .Null => true
  | .Integer, .TypedValue (.Integer n) => decide (i64Min ≤ n ∧ n ≤ i64Max)
  | .String, .TypedValue (.String _) => true
  | _, _ => false

def stringLenOk : Value → Bool
  | .TypedValue (.String s) => (utf8Encode s).length ≤ 65000
  | _ => true

def demoSchema : List (String × DataType) :=
  [("id", .Integer), ("name", .String)]

def demoColumns : Columns :=
  ⟨[("id", ⟨.Integer, 0, 0⟩), ("name", ⟨.String, 0, 0⟩)], 8, 1, 1⟩

def demoValues : List Value :=
  [.TypedValue (.Integer 25),
   .TypedValue (.String ['U', 's', 'e', 'r'])]

/-- Layout asserted by the specification for the C8 comparison, modelled
from the claim's words: fixed-size section, then the directory of
variable-size columns, then the null bitmap for fixed-size columns, then
the variable payloads. -/
def claimedDirFirstLayout (q : Nat) (tvs : List (DataType × Value)) :
    List Nat :=
  fixedSection tvs ++ dirSection q tvs ++ bitmaskBytes (nullBitsOf tvs) ++
    payloadSection tvs

/-- `MathematicalOp` from the statement AST. -/
inductive MathematicalOp
  | Add
  | Subtract
  | Multiply
  | Divide
  | Modulus
deriving DecidableEq, Repr

/-- `BinaryOp` from the statement AST. -/
inductive BinaryOp
  | And
  | Or
  | Comparison (c : ComparisonOp)
  | Mathematical (m : MathematicalOp)
deriving DecidableEq, Repr

/-- Resolved `Expression` tree. -/
inductive Expression
  | Value (v : Value)
  | Identifier (name : String)
  | BinaryOp (l : Expression) (op : StardustDb.BinaryOp) (r : Expression)
deriving DecidableEq, Repr

/-- `GetData` for a row held as an association list of column values. -/
def rowGetData (row : List (String × Value)) (name : String) :
    Except DbError Value :=
  match row.find? (fun p => p.1 = name) with
  | some p => .ok p.2
  | none => .error (.noColumn name)

/-- Release-mode `i64` wrap-around of a mathematically exact integer. -/
def wrapI64 (x : Int) : Int :=
  (x + 2 ^ 63) % 2 ^ 64 - 2 ^ 63

/-- `i64::checked_div`: `None` on a zero divisor or on the overflowing
`i64::MIN / -1`; otherwise truncating division. -/
def i64CheckedDiv (a b : Int) : Option Int :=
  if b = 0 ∨ (a = i64Min ∧ b = -1) then none else some (a.tdiv b)

/-- `i64::checked_rem`: `None` on a zero divisor or on `i64::MIN % -1`;
otherwise the remainder of truncating division. -/
def i64CheckedRem (a b : Int) : Option Int :=
  if b = 0 ∨ (a = i64Min ∧ b = -1) then none else some (a.tmod b)

/-- `evaluate_expression` in `interpreter.rs`, with `Add`, `Subtract` and
`Multiply` given release-mode wrap-around semantics and `Divide` and
`Modulus` the source's `checked_div`/`checked_rem` with `map_or(Null)`. -/
def evaluate_expression (row : List (String × Value)) :
    Expression → Except DbError Value
  | .Value v => .ok v
  | .Identifier name => rowGetData row name
  | .BinaryOp l op r => do
    let left ← evaluate_expression row l
    let right ← evaluate_expression row r
    match op with
    | .And => .ok (left.and right)
    | .Or => .ok (left.or right)
    | .Comparison c => .ok ((left.compare right).get_value c)
    | .Mathematical m => do
      let li ← (left.cast .Integer).assume_integer
      let ri ← (right.cast .Integer).assume_integer
      match m with
      | .Add => .ok (.TypedValue (.Integer (wrapI64 (li + ri))))
      | .Subtract => .ok (.TypedValue (.Integer (wrapI64 (li - ri))))
      | .Multiply => .ok (.TypedValue (.Integer (wrapI64 (li * ri))))
      | .Divide =>
        .ok ((i64CheckedDiv li ri).elim Value.Null
          (fun i => .TypedValue (.Integer i)))
      | .Modulus =>
        .ok ((i64CheckedRem li ri).elim Value.Null
          (fun i => .TypedValue (.Integer i)))

/-- Shorthand for an integer literal operand. -/
def intExpr (i : Int) : Expression :=
  .Value (.TypedValue (.Integer i))

/-- `OrderByDirection` from the statement AST. -/
inductive OrderByDirection
  | Ascending
  | Descending
deriving DecidableEq, Repr

/-- `OrderBy` from the statement AST; the expression is kept as the
column name it prints to. -/
structure OrderBy where
  expression : String
  direction : OrderByDirection
  nulls_first : Bool
deriving DecidableEq, Repr

/-- The `ORDER BY` item of the sqlparser AST that `parse_order_by`
consumes: the printed expression, the optional `ASC`/`DESC` flag and the
optional `NULLS FIRST`/`NULLS LAST` flag. -/
structure OrderByExprAst where
  expr : String
  asc : Option Bool
  nulls_first : Option Bool
deriving DecidableEq, Repr

/-- `parse_order_by` in `query_process/select.rs`: `ASC` or absence maps
to `Ascending`, and `nulls_first` is set exactly when the SQL clause was
`NULLS FIRST`. -/
def parse_order_by (o : OrderByExprAst) : OrderBy :=
  { expression := o.expr
    direction :=
      match o.asc with
      | some true => .Ascending
      | none => .Ascending
      | some false => .Descending
    nulls_first := o.nulls_first = some true }

/-- The comparator closure of `Relation::sort`, iterating the resolved
`(index, direction, nulls_first)` triples.  In the non-Null arm the
source marks `Comparison::Unknown` as `unreachable!()`; comparing two
non-Null values indeed never yields `Unknown`, so that arm is dead and
is mapped to `Equal` here. -/
def rowCompare : List (Nat × OrderByDirection × Bool) →
    List Value → List Value → Ordering
  | [], _, _ => .eq
  | (index, direction, nf) :: rest, a, b =>
    let av := a.getD index Value.Null
    let bv := b.getD index Value.Null
    let ord : Ordering :=
      match av, bv with
      | .Null, .Null => .eq
      | .Null, _ => if nf then .gt else .lt
      | _, .Null => if nf then .lt else .gt
      | _, _ =>
        match av.compare bv with
        | .LessThan => .lt
        | .Equal => .eq
        | .GreaterThan => .gt
        | .Unknown => .eq
    let ord := if direction = .Descending then ord.swap else ord
    if ord ≠ .eq then ord else rowCompare rest a b

/-- Insert into a comparator-sorted list, keeping the new element before
every element it does not compare `Greater` than. -/
def insertBy {α : Type} (cmp : α → α → Ordering) (x : α) :
    List α → List α
  | [] => [x]
  | y :: ys =>
    match cmp x y with
    | .gt => y :: insertBy cmp x ys
    | _ => x :: y :: ys

/-- Sort by a comparator.  `Relation::sort` calls `sort_unstable_by`;
when the comparator orders the rows strictly the sorted result is the
same as this insertion sort's. -/
def sortBy {α : Type} (cmp : α → α → Ordering) : List α → List α
  | [] => []
  | x :: xs => insertBy cmp x (sortBy cmp xs)

/-- `Relation`: column names and gathered rows. -/
structure Relation where
  column_names : List String
  rows : List (List Value)
deriving DecidableEq, Repr

/-- `Relation::sort`: resolve each `ORDER BY` expression to a column
index, then sort the rows with the comparator. -/
def Relation.sort (r : Relation) (order_by : List OrderBy) :
    Except DbError Relation :=
  if order_by.isEmpty then .ok r
  else do
    let resolved ← order_by.mapM (fun o =>
      match r.column_names.findIdx? (fun s => s = o.expression) with
      | some index => Except.ok (index, o.direction, o.nulls_first)
      | none => Except.error (DbError.noColumn o.expression))
    .ok ⟨r.column_names, sortBy (rowCompare resolved) r.rows⟩

/-- A parent (referred) table as the checker sees it: column names and
the decoded stored rows (`TableHandler::iter` plus `get_value`). -/
structure ForeignTableView where
  column_names : List String
  rows : List (List Value)
deriving DecidableEq, Repr

/-- `TableHandler::get_value` on a decoded row: resolve the column name
to its index. -/
def ftGetValue (t : ForeignTableView) (column : String)
    (row : List Value) : Except DbError Value :=
  match t.column_names.findIdx? (fun s => s = column) with
  | some i => .ok (row.getD i Value.Null)
  | none => .error (.internal "Could not find column")

/-- The inner loop of `check_row_contains`: compare the child row's
foreign-key columns against one parent row with the derived `PartialEq`
(`!=`), under which `Null` equals only `Null`; `ok false` plays the part
of the source's `continue 'row`. -/
def fkRowMatches (t : ForeignTableView) (this_row frow : List Value) :
    List (Nat × String) → Except DbError Bool
  | [] => .ok true
  | (tc, fc) :: rest => do
    let fv ← ftGetValue t fc frow
    if this_row.getD tc Value.Null ≠ fv then .ok false
    else fkRowMatches t this_row frow rest

/-- One column pair agreeing structurally (specification-side reading of
the loop body). -/
def fkPairHolds (t : ForeignTableView) (this_row frow : List Value)
    (p : Nat × String) : Bool :=
  match t.column_names.findIdx? (fun s => s = p.2) with
  | some i => this_row.getD p.1 Value.Null = frow.getD i Value.Null
  | none => false

/-- The outer `'row` loop of `check_row_contains` over the parent
rows. -/
def checkRowContainsAux (name : String) (t : ForeignTableView)
    (this_row : List Value) (pairs : List (Nat × String)) :
    List (List Value) → Except DbError Unit
  | [] => .error (.foreignKeyConstraintFailed name)
  | frow :: rest => do
    let m ← fkRowMatches t this_row frow pairs
    if m then .ok ()
    else checkRowContainsAux name t this_row pairs rest

/-- `ForeignKeyChecker::check_row_contains`: accept the candidate child
row as soon as some parent row agrees on every foreign-key column,
otherwise fail with `ForeignKeyConstraintFailed`. -/
def check_row_contains (name : String) (this_columns : List Nat)
    (t : ForeignTableView) (foreign_columns : List String)
    (this_row : List Value) : Except DbError Unit :=
  checkRowContainsAux name t this_row
    (this_columns.zip foreign_columns) t.rows

/-- `ForeignKeyAction` from the table definition. -/
inductive ForeignKeyAction
  | NoAction
  | SetNull
  | SetDefault
  | Cascade
deriving DecidableEq, Repr

/-- `Action` passed to `check_parent_rows`: the parent row is being
deleted, or updated to the given new row. -/
inductive Action
  | Delete
  | Update (updated_row : List Value)
deriving DecidableEq, Repr

/-- The `SetNull`/`SetDefault` row builder of `check_parent_rows`: walk
the child's columns with a peekable iterator over the changed column
names, substituting `Null` (or the column default) at each changed
column. -/
def setRowAux (defaults frow : List Value) (useNull : Bool) :
    Nat → List String → List String → List Value
  | _, [], _ => []
  | idx, _ :: cols, [] =>
    frow.getD idx Value.Null ::
      setRowAux defaults frow useNull (idx + 1) cols []
  | idx, column :: cols, change :: changedRest =>
    if change = column then
      (if useNull then Value.Null else defaults.getD idx Value.Null) ::
        setRowAux defaults frow useNull (idx + 1) cols changedRest
    else
      frow.getD idx Value.Null ::
        setRowAux defaults frow useNull (idx + 1) cols
          (change :: changedRest)

/-- The row the `Cascade`/`Update` arm of `check_parent_rows` builds:
the child row with each foreign-key column replaced by the updated
parent row's referred value.  The source constructs this `new_row` and
then drops it without calling `update_row`. -/
def cascadeUpdateRowAux (updated_row frow : List Value) :
    Nat → List String → List (Nat × String) → List Value
  | _, [], _ => []
  | idx, _ :: cols, [] =>
    frow.getD idx Value.Null ::
      cascadeUpdateRowAux updated_row frow (idx + 1) cols []
  | idx, column :: cols, (tcIdx, change) :: changedRest =>
    if change = column then
      updated_row.getD tcIdx Value.Null ::
        cascadeUpdateRowAux updated_row frow (idx + 1) cols changedRest
    else
      frow.getD idx Value.Null ::
        cascadeUpdateRowAux updated_row frow (idx + 1) cols
          ((tcIdx, change) :: changedRest)

/-- The `'row` loop of `check_parent_rows` over the child rows, for a
child table with no further foreign keys, returning the child rows left
stored after the pass.  In the `Cascade`/`Update` arm the source builds
`new_row` but never writes it back, so the matched row is kept
unchanged. -/
def checkParentRowsAux (name : String) (this_row : List Value)
    (pairs : List (Nat × String)) (child : ForeignTableView)
    (defaults : List Value) (foreign_columns : List String)
    (fk_action : ForeignKeyAction) (action : Action) :
    List (List Value) → Except DbError (List (List Value))
  | [] => .ok []
  | frow :: rest => do
    let m ← fkRowMatches child this_row frow pairs
    if m then
      match fk_action with
      | .NoAction => .error (.foreignKeyConstraintFailed name)
      | .SetNull => do
        let r ← checkParentRowsAux name this_row pairs child defaults
          foreign_columns fk_action action rest
        .ok (setRowAux defaults frow true 0 child.column_names
          foreign_columns :: r)
      | .SetDefault => do
        let r ← checkParentRowsAux name this_row pairs child defaults
          foreign_columns fk_action action rest
        .ok (setRowAux defaults frow false 0 child.column_names
          foreign_columns :: r)
      | .Cascade =>
        match action with
        | .Delete =>
          checkParentRowsAux name this_row pairs child defaults
            foreign_columns fk_action action rest
        | .Update _ => do
          let r ← checkParentRowsAux name this_row pairs child defaults
            foreign_columns fk_action action rest
          .ok (frow :: r)
    else do
      let r ← checkParentRowsAux name this_row pairs child defaults
        foreign_columns fk_action action rest
      .ok (frow :: r)

/-- `ForeignKeyChecker::check_parent_rows` for a child table with no
further foreign keys: select the action's configured
`ForeignKeyAction`, then run the row loop. -/
def check_parent_rows (name : String) (this_row : List Value)
    (this_columns : List Nat) (child : ForeignTableView)
    (defaults : List Value) (foreign_columns : List String)
    (on_update on_delete : ForeignKeyAction) (action : Action) :
    Except DbError (List (List Value)) :=
  let fk_action :=
    match action with
    | .Delete => on_delete
    | .Update _ => on_update
  checkParentRowsAux name this_row (this_columns.zip foreign_columns)
    child defaults foreign_columns fk_action action child.rows

/-- Child table for the C4 run: one column `a` holding `'x'`. -/
def demoChild : ForeignTableView :=
  ⟨["a"], [[.TypedValue (.String ['x'])]]⟩

/-- A table as `execute_insert` affects it: column names, `CHECK`
constraints, `NOT NULL` columns (with the unique-constraint name when
they come from a primary key), `UNIQUE` column sets, and the stored rows
(decoded view of the sled tree). -/
structure TableState where
  column_names : List String
  checks : List (Expression × String)
  not_nulls : List (Nat × Option String)
  uniques : List (List Nat × String)
  rows : List (List Value)
deriving DecidableEq, Repr

/-- The `CHECK` loop of `TableHandler::check_row`. -/
def checkChecksAux (t : TableState) (row : List Value) :
    List (Expression × String) → Except DbError Unit
  | [] => .ok ()
  | (check, name) :: rest => do
    let v ← evaluate_expression (t.column_names.zip row) check
    if v.is_true then checkChecksAux t row rest
    else .error (.checkConstraintFailed name)

/-- The `NOT NULL` loop of `TableHandler::check_row`. -/
def checkNotNullsAux (t : TableState) (row : List Value) :
    List (Nat × Option String) → Except DbError Unit
  | [] => .ok ()
  | (i, name) :: rest =>
    if (row.getD i Value.Null).is_null then
      .error (.nullConstraintFailed
        (name.getD (t.column_names.getD i "")))
    else checkNotNullsAux t row rest

/-- One stored row of the `UNIQUE` scan: the candidate collides when
every column of some unique set compares `Equal` (a `Null` comparison is
`Unknown`, never equal). -/
def checkUniqueRowAux (row stored : List Value) :
    List (List Nat × String) → Except DbError Unit
  | [] => .ok ()
  | (uset, name) :: rest =>
    if uset.all (fun idx =>
        ((row.getD idx Value.Null).compare
          (stored.getD idx Value.Null)).is_equal) then
      .error (.uniqueConstraintFailed name)
    else checkUniqueRowAux row stored rest

/-- The stored-row loop of the `UNIQUE` scan. -/
def checkUniquesAux (t : TableState) (row : List Value) :
    List (List Value) → Except DbError Unit
  | [] => .ok ()
  | stored :: rest => do
    checkUniqueRowAux row stored t.uniques
    checkUniquesAux t row rest

/-- `TableHandler::check_row` for a table with no outgoing foreign
keys. -/
def TableState.check_row (t : TableState) (row : List Value) :
    Except DbError Unit := do
  checkChecksAux t row t.checks
  checkNotNullsAux t row t.not_nulls
  checkUniquesAux t row t.rows

/-- `TableHandler::insert_values`: check the row, then insert it into
the tree (modelled on the decoded view). -/
def TableState.insert_values (t : TableState) (values : List Value) :
    Except DbError TableState := do
  t.check_row values
  .ok { t with rows := t.rows ++ [values] }

/-- The per-row loop of `Interpreter::execute_insert` (the branch with
no specified column list): each `insert_values` writes through to the
tree before the next row is attempted, and the `?` on a failure returns
with every earlier insert already persisted. -/
def executeInsertLoop (t : TableState) :
    List (List Value) → Except DbError Unit × TableState
  | [] => (.ok (), t)
  | row :: rest =>
    match t.insert_values row with
    | .ok t1 => executeInsertLoop t1 rest
    | .error e => (.error e, t)

/-- Table for the C2 run: single `NOT NULL` column `a`, no other
constraints, initially empty. -/
def demoTable : TableState :=
  ⟨["a"], [], [(0, none)], [], []⟩

theorem natToBeBytes_length (n v : Nat) : (natToBeBytes n v).length = n := by
  induction n generalizing v with
  | zero => rfl
  | succ n ih => simp [natToBeBytes, ih]

theorem beBytesToNat_append (l₁ l₂ : List Nat) :
    beBytesToNat (l₁ ++ l₂) =
      beBytesToNat l₁ * 256 ^ l₂.length + beBytesToNat l₂ := by
  induction l₂ using List.reverseRecOn with
  | nil => simp [beBytesToNat]
  | append_singleton l₂ b ih =>
    simp only [beBytesToNat, List.foldl_append, List.foldl_cons, List.foldl_nil,
      ← List.append_assoc] at *
    rw [ih, List.length_append, List.length_singleton]
    ring

theorem beBytesToNat_natToBeBytes {n v : Nat} (h : v < 256 ^ n) :
    beBytesToNat (natToBeBytes n v) = v := by
  induction n generalizing v with
  | zero =>
    simp [natToBeBytes, beBytesToNat]
    omega
  | succ n ih =>
    rw [natToBeBytes, beBytesToNat_append]
    have hdiv : v / 256 < 256 ^ n := by
      rw [Nat.div_lt_iff_lt_mul (by norm_num)]
      calc v < 256 ^ (n + 1) := h
        _ = 256 ^ n * 256 := by ring
    rw [ih hdiv]
    simp [beBytesToNat]
    omega

theorem beBytesToInt_intToBeBytes {i : Int}
    (h₁ : -(2 ^ 63) ≤ i) (h₂ : i < 2 ^ 63) :
    beBytesToInt (intToBeBytes i) = i := by
  have hmod : (0 : Int) ≤ i % 2 ^ 64 := Int.emod_nonneg i (by norm_num)
  have hlt : i % 2 ^ 64 < 2 ^ 64 := Int.emod_lt_of_pos i (by norm_num)
  have hv : (i % 2 ^ 64).toNat < 256 ^ 8 := by
    have : (256 : Nat) ^ 8 = 2 ^ 64 := by norm_num
    omega
  have hform : beBytesToInt (intToBeBytes i) =
      if (i % 2 ^ 64).toNat < 2 ^ 63 then ((i % 2 ^ 64).toNat : Int)
      else ((i % 2 ^ 64).toNat : Int) - 2 ^ 64 := by
    unfold beBytesToInt intToBeBytes
    rw [beBytesToNat_natToBeBytes hv]
  rw [hform]
  split_ifs with h <;> omega

theorem intToBeBytes_length (i : Int) : (intToBeBytes i).length = 8 := by
  simp [intToBeBytes, natToBeBytes_length]

theorem writeBytes_append_left {a : List Nat} (b : List Nat) {pos : Nat}
    (src : List Nat) (h : a.length ≤ pos) :
    writeBytes (a ++ b) pos src = a ++ writeBytes b (pos - a.length) src := by
  unfold writeBytes
  rw [List.take_append_eq_append_take, List.drop_append_eq_append_drop,
    List.take_of_length_le h, List.drop_eq_nil_of_le (by omega)]
  have h2 : pos + src.length - a.length = pos - a.length + src.length := by omega
  rw [h2]
  simp [List.append_assoc]

theorem writeBytes_zero_of_length_le {b : List Nat} (src : List Nat)
    (_h : src.length ≤ b.length) :
    writeBytes b 0 src = src ++ b.drop src.length := by
  unfold writeBytes
  simp

theorem orByteAt_append_left {a : List Nat} (b : List Nat) {pos : Nat}
    (v : Nat) (h : a.length ≤ pos) :
    orByteAt (a ++ b) pos v = a ++ orByteAt b (pos - a.length) v := by
  unfold orByteAt
  rw [List.take_append_eq_append_take, List.drop_append_eq_append_drop,
    List.getD_append_right a b 0 pos h, List.take_of_length_le h,
    List.drop_eq_nil_of_le (by omega)]
  have h2 : pos + 1 - a.length = pos - a.length + 1 := by omega
  rw [h2]
  simp [List.append_assoc]

theorem orByteAt_cons_head (b : Nat) (rest : List Nat) (v : Nat) :
    orByteAt (b :: rest) 0 v = (b ||| v) :: rest := by
  simp [orByteAt]

theorem writeBytes_length {row : List Nat} {pos : Nat} {src : List Nat}
    (h : pos + src.length ≤ row.length) :
    (writeBytes row pos src).length = row.length := by
  unfold writeBytes
  simp only [List.length_append, List.length_take, List.length_drop]
  omega

theorem char_toNat_lt (c : Char) : c.toNat < 0x110000 := by
  have h := c.valid
  have hv : c.toNat = c.val.toNat := rfl
  rcases h with h | ⟨_, h⟩
  · have : c.val.toNat < 0xD800 := h
    omega
  · have : c.val.toNat < 0x110000 := h
    omega

theorem char_toNat_not_surrogate (c : Char) :
    ¬ (0xD800 ≤ c.toNat ∧ c.toNat < 0xE000) := by
  have h := c.valid
  have hv : c.toNat = c.val.toNat := rfl
  rcases h with h | ⟨h, _⟩
  · have : c.val.toNat < 0xD800 := h
    omega
  · have : 0xE000 ≤ c.val.toNat := h
    omega

theorem utf8EncodeChar_ne_nil (c : Char) : utf8EncodeChar c ≠ [] := by
  simp only [utf8EncodeChar]
  split_ifs <;> simp

theorem utf8DecodeStep_encodeChar (c : Char) (bs : List Nat) :
    utf8DecodeStep (utf8EncodeChar c ++ bs) = some (c, bs) := by
  have hlt := char_toNat_lt c
  have hsur := char_toNat_not_surrogate c
  simp only [utf8EncodeChar]
  rcases Nat.lt_or_ge c.toNat 0x80 with h1 | h1
  · simp only [h1, if_true, List.cons_append, List.nil_append]
    rw [utf8DecodeStep, if_pos h1, Char.ofNat_toNat]
  · rcases Nat.lt_or_ge c.toNat 0x800 with h2 | h2
    · simp only [h1.not_lt, h2, if_true, if_false, List.cons_append, List.nil_append]
      rw [utf8DecodeStep]
      have e1 : ¬ (0xC0 + c.toNat / 64 < 0x80) := by omega
      have e2 : ¬ (0xC0 + c.toNat / 64 < 0xC0) := by omega
      have e3 : 0xC0 + c.toNat / 64 < 0xE0 := by
        have : c.toNat / 64 < 32 := by omega
        omega
      rw [if_neg e1, if_neg e2, if_pos e3, utf8Cont2]
      have hm : c.toNat % 64 < 64 := Nat.mod_lt _ (by norm_num)
      have e4 : (0x80 ≤ 0x80 + c.toNat % 64 ∧ 0x80 + c.toNat % 64 < 0xC0) ∧
          0x80 ≤ (0xC0 + c.toNat / 64 - 0xC0) * 64 + (0x80 + c.toNat % 64 - 0x80) := by
        have := Nat.div_add_mod c.toNat 64
        omega
      rw [if_pos e4]
      have e5 : (0xC0 + c.toNat / 64 - 0xC0) * 64 + (0x80 + c.toNat % 64 - 0x80) =
          c.toNat := by
        have := Nat.div_add_mod c.toNat 64
        omega
      rw [e5, Char.ofNat_toNat]
    · rcases Nat.lt_or_ge c.toNat 0x10000 with h3 | h3
      · simp only [h1.not_lt, h2.not_lt, h3, if_true, if_false,
          List.cons_append, List.nil_append]
        rw [utf8DecodeStep]
        have e1 : ¬ (0xE0 + c.toNat / 4096 < 0x80) := by omega
        have e2 : ¬ (0xE0 + c.toNat / 4096 < 0xC0) := by omega
        have e3 : ¬ (0xE0 + c.toNat / 4096 < 0xE0) := by omega
        have e4 : 0xE0 + c.toNat / 4096 < 0xF0 := by
          have : c.toNat / 4096 < 16 := by omega
          omega
        rw [if_neg e1, if_neg e2, if_neg e3, if_pos e4, utf8Cont3]
        have hm1 : c.toNat / 64 % 64 < 64 := Nat.mod_lt _ (by norm_num)
        have hm2 : c.toNat % 64 < 64 := Nat.mod_lt _ (by norm_num)
        have q1 := Nat.div_add_mod c.toNat 64
        have q2 := Nat.div_add_mod (c.toNat / 64) 64
        have q3 : c.toNat / 64 / 64 = c.toNat / 4096 := by
          rw [Nat.div_div_eq_div_mul]
        have e6 : (0xE0 + c.toNat / 4096 - 0xE0) * 4096 +
            (0x80 + c.toNat / 64 % 64 - 0x80) * 64 + (0x80 + c.toNat % 64 - 0x80) =
            c.toNat := by omega
        have e5 : (0x80 ≤ 0x80 + c.toNat / 64 % 64 ∧ 0x80 + c.toNat / 64 % 64 < 0xC0) ∧
            (0x80 ≤ 0x80 + c.toNat % 64 ∧ 0x80 + c.toNat % 64 < 0xC0) ∧
            0x800 ≤ (0xE0 + c.toNat / 4096 - 0xE0) * 4096 +
              (0x80 + c.toNat / 64 % 64 - 0x80) * 64 + (0x80 + c.toNat % 64 - 0x80) ∧
            ¬ (0xD800 ≤ (0xE0 + c.toNat / 4096 - 0xE0) * 4096 +
                (0x80 + c.toNat / 64 % 64 - 0x80) * 64 + (0x80 + c.toNat % 64 - 0x80) ∧
               (0xE0 + c.toNat / 4096 - 0xE0) * 4096 +
                (0x80 + c.toNat / 64 % 64 - 0x80) * 64 + (0x80 + c.toNat % 64 - 0x80) < 0xE000) := by
          rw [e6]
          exact ⟨by omega, by omega, h2, hsur⟩
        rw [if_pos e5, e6, Char.ofNat_toNat]
      · simp only [h1.not_lt, h2.not_lt, h3.not_lt, if_false,
          List.cons_append, List.nil_append]
        rw [utf8DecodeStep]
        have e1 : ¬ (0xF0 + c.toNat / 262144 < 0x80) := by omega
        have e2 : ¬ (0xF0 + c.toNat / 262144 < 0xC0) := by omega
        have e3 : ¬ (0xF0 + c.toNat / 262144 < 0xE0) := by omega
        have e4 : ¬ (0xF0 + c.toNat / 262144 < 0xF0) := by omega
        have e5 : 0xF0 + c.toNat / 262144 < 0xF8 := by
          have : c.toNat / 262144 < 5 := by omega
          omega
        rw [if_neg e1, if_neg e2, if_neg e3, if_neg e4, if_pos e5, utf8Cont4]
        have hm1 : c.toNat / 4096 % 64 < 64 := Nat.mod_lt _ (by norm_num)
        have hm2 : c.toNat / 64 % 64 < 64 := Nat.mod_lt _ (by norm_num)
        have hm3 : c.toNat % 64 < 64 := Nat.mod_lt _ (by norm_num)
        have q1 := Nat.div_add_mod c.toNat 64
        have q2 := Nat.div_add_mod (c.toNat / 64) 64
        have q3 := Nat.div_add_mod (c.toNat / 4096) 64
        have q4 : c.toNat / 64 / 64 = c.toNat / 4096 := by
          rw [Nat.div_div_eq_div_mul]
        have q5 : c.toNat / 4096 / 64 = c.toNat / 262144 := by
          rw [Nat.div_div_eq_div_mul]
        have e7 : (0xF0 + c.toNat / 262144 - 0xF0) * 262144 +
            (0x80 + c.toNat / 4096 % 64 - 0x80) * 4096 +
            (0x80 + c.toNat / 64 % 64 - 0x80) * 64 + (0x80 + c.toNat % 64 - 0x80) =
            c.toNat := by omega
        have e6 : (0x80 ≤ 0x80 + c.toNat / 4096 % 64 ∧ 0x80 + c.toNat / 4096 % 64 < 0xC0) ∧
            (0x80 ≤ 0x80 + c.toNat / 64 % 64 ∧ 0x80 + c.toNat / 64 % 64 < 0xC0) ∧
            (0x80 ≤ 0x80 + c.toNat % 64 ∧ 0x80 + c.toNat % 64 < 0xC0) ∧
            0x10000 ≤ (0xF0 + c.toNat / 262144 - 0xF0) * 262144 +
              (0x80 + c.toNat / 4096 % 64 - 0x80) * 4096 +
              (0x80 + c.toNat / 64 % 64 - 0x80) * 64 + (0x80 + c.toNat % 64 - 0x80) ∧
            (0xF0 + c.toNat / 262144 - 0xF0) * 262144 +
              (0x80 + c.toNat / 4096 % 64 - 0x80) * 4096 +
              (0x80 + c.toNat / 64 % 64 - 0x80) * 64 + (0x80 + c.toNat % 64 - 0x80) < 0x110000 := by
          rw [e7]
          exact ⟨by omega, by omega, by omega, h3, hlt⟩
        rw [if_pos e6, e7, Char.ofNat_toNat]

theorem utf8DecodeAux_encode (s : List Char) :
    ∀ fuel, (utf8Encode s).length ≤ fuel →
      utf8DecodeAux fuel (utf8Encode s) = some s := by
  induction s with
  | nil => intro fuel _; cases fuel <;> rfl
  | cons c cs ih =>
    intro fuel hfuel
    have henc : utf8Encode (c :: cs) = utf8EncodeChar c ++ utf8Encode cs := by
      simp [utf8Encode]
    obtain ⟨b, bs1, hb⟩ : ∃ b bs1, utf8EncodeChar c = b :: bs1 := by
      cases hec : utf8EncodeChar c with
      | nil => exact absurd hec (utf8EncodeChar_ne_nil c)
      | cons b bs1 => exact ⟨b, bs1, rfl⟩
    rw [henc] at hfuel ⊢
    rw [hb] at hfuel ⊢
    obtain ⟨f, rfl⟩ : ∃ f, fuel = f + 1 := by
      simp only [List.cons_append, List.length_cons] at hfuel
      exact ⟨fuel - 1, by omega⟩
    simp only [List.cons_append, utf8DecodeAux]
    have hstep : utf8DecodeStep (b :: (bs1 ++ utf8Encode cs)) =
        some (c, utf8Encode cs) := by
      have h := utf8DecodeStep_encodeChar c (utf8Encode cs)
      rwa [hb, List.cons_append] at h
    simp only [List.append_eq]
    rw [hstep]
    have hfs : (utf8Encode cs).length ≤ f := by
      simp only [List.cons_append, List.length_cons, List.length_append] at hfuel
      omega
    show Option.map (fun x => c :: x) (utf8DecodeAux f (utf8Encode cs)) = some (c :: cs)
    rw [ih f hfs]
    rfl

theorem utf8Decode_utf8Encode (s : List Char) :
    utf8Decode (utf8Encode s) = some s :=
  utf8DecodeAux_encode s (utf8Encode s).length le_rfl

theorem encValue_integer_length {v : Value} {bs : List Nat}
    (h : encValue .Integer v = some bs) : bs.length = 8 := by
  cases v with
  | Null => simp [encValue, DataType.resolve_value] at h
  | TypedValue c =>
    simp only [encValue, DataType.resolve_value, Option.map_some'] at h
    cases h
    simp [TypeContents.cast, TypeContents.encode, intToBeBytes_length]

theorem encValue_isSome (t : DataType) (v : Value) :
    (encValue t v).isSome = ¬ v.is_null := by
  cases v <;> simp [encValue, DataType.resolve_value, Value.is_null]

theorem fixedSpec_length (svs : List Value) :
    (fixedSpec svs).length = 8 * svs.length := by
  induction svs with
  | nil => rfl
  | cons v rest ih =>
    simp only [fixedSpec, List.length_append, ih, List.length_cons]
    cases h : encValue .Integer v with
    | none => simp; ring
    | some bs => simp [encValue_integer_length h]; ring

theorem dirSpec_length (q : Nat) (uvs : List Value) :
    (dirSpec q uvs).length = 2 * uvs.length := by
  induction uvs generalizing q with
  | nil => rfl
  | cons v rest ih =>
    simp only [dirSpec]
    cases h : encValue .String v with
    | none => simp [ih]; ring
    | some bs =>
      simp [ih, natToBeBytes_length]
      ring

theorem paySpec_append (a b : List Value) :
    paySpec (a ++ b) = paySpec a ++ paySpec b := by
  induction a with
  | nil => rfl
  | cons v rest ih => simp [paySpec, ih]

theorem bitmaskBytes_length (bits : List Bool) :
    (bitmaskBytes bits).length = (bits.length + 7) / 8 := by
  simp [bitmaskBytes]

theorem byteOfBits_lt (l : List Bool) : byteOfBits l < 2 ^ l.length := by
  induction l with
  | nil => simp [byteOfBits]
  | cons b rest ih =>
    simp only [byteOfBits, List.length_cons, pow_succ]
    cases b <;> simp <;> omega

theorem byteOfBits_append (l₁ l₂ : List Bool) :
    byteOfBits (l₁ ++ l₂) = byteOfBits l₁ + 2 ^ l₁.length * byteOfBits l₂ := by
  induction l₁ with
  | nil => simp [byteOfBits]
  | cons b rest ih =>
    simp only [List.cons_append, byteOfBits, List.append_eq, ih,
      List.length_cons, pow_succ]
    ring

theorem byteOfBits_replicate_false (n : Nat) :
    byteOfBits (List.replicate n false) = 0 := by
  induction n with
  | zero => rfl
  | succ n ih => simp [List.replicate_succ, byteOfBits, ih]

theorem byteOfBits_cons_bit (b : Bool) (l : List Bool) :
    byteOfBits (b :: l) = Nat.bit b (byteOfBits l) := by
  cases b <;> simp [byteOfBits, Nat.bit] <;> omega

theorem getD_take {α : Type} (l : List α) (n i : Nat) (d : α) (h : i < n) :
    (l.take n).getD i d = l.getD i d := by
  rw [List.getD_eq_getElem?_getD, List.getD_eq_getElem?_getD,
    List.getElem?_take, if_pos h]

theorem getD_drop {α : Type} (l : List α) (m i : Nat) (d : α) :
    (l.drop m).getD i d = l.getD (m + i) d := by
  rw [List.getD_eq_getElem?_getD, List.getD_eq_getElem?_getD,
    List.getElem?_drop]

theorem byteOfBits_lor_set (w : List Bool) :
    ∀ r : Nat, r < w.length → w.getD r false = false →
      byteOfBits w ||| 2 ^ r = byteOfBits (w.set r true) := by
  induction w with
  | nil => intro r hr; simp at hr
  | cons b rest ih =>
    intro r hr hb
    cases r with
    | zero =>
      simp only [List.getD_cons_zero] at hb
      subst hb
      rw [List.set_cons_zero, byteOfBits_cons_bit, byteOfBits_cons_bit]
      have h1 : (2 : Nat) ^ 0 = Nat.bit true 0 := rfl
      rw [h1, Nat.lor_bit]
      simp
    | succ r =>
      simp only [List.getD_cons_succ] at hb
      simp only [List.length_cons, Nat.succ_lt_succ_iff] at hr
      rw [List.set_cons_succ, byteOfBits_cons_bit, byteOfBits_cons_bit]
      have h1 : (2 : Nat) ^ (r + 1) = Nat.bit false (2 ^ r) := by
        simp [Nat.bit, pow_succ]
        ring
      rw [h1, Nat.lor_bit, ih r hr hb]
      simp

theorem byteOfBits_land (w : List Bool) :
    ∀ r : Nat, byteOfBits w &&& 2 ^ r =
      if w.getD r false then 2 ^ r else 0 := by
  induction w with
  | nil =>
    intro r
    simp [byteOfBits]
  | cons b rest ih =>
    intro r
    cases r with
    | zero =>
      rw [byteOfBits_cons_bit]
      have h1 : (2 : Nat) ^ 0 = Nat.bit true 0 := rfl
      rw [h1, Nat.land_bit]
      cases b <;> simp [Nat.bit]
    | succ r =>
      rw [byteOfBits_cons_bit]
      have h1 : (2 : Nat) ^ (r + 1) = Nat.bit false (2 ^ r) := by
        simp [Nat.bit, pow_succ]
        ring
      rw [h1, Nat.land_bit, ih r]
      by_cases hb : rest.getD r false <;>
        simp [hb, Nat.bit, pow_succ] <;> ring

theorem window_getD (w : List Bool) (j i : Nat) (h : i < 8) :
    ((w.drop (8 * j)).take 8).getD i false = w.getD (8 * j + i) false := by
  rw [getD_take _ _ _ _ h, getD_drop]

theorem bitmaskBytes_getD (bits : List Bool) (j : Nat)
    (h : j < (bits.length + 7) / 8) :
    (bitmaskBytes bits).getD j 0 = byteOfBits ((bits.drop (8 * j)).take 8) := by
  rw [List.getD_eq_getElem?_getD, bitmaskBytes]
  rw [List.getElem?_map]
  have : (List.range ((bits.length + 7) / 8))[j]? = some j := by
    rw [List.getElem?_range h]
  rw [this]
  rfl

theorem orByteAt_length {M : List Nat} {p : Nat} (v : Nat)
    (h : p < M.length) : (orByteAt M p v).length = M.length := by
  unfold orByteAt
  simp only [List.length_append, List.length_take, List.length_cons,
    List.length_nil, List.length_drop]
  omega

theorem orByteAt_getD {M : List Nat} {p : Nat} (v : Nat) (j : Nat)
    (h : p < M.length) :
    (orByteAt M p v).getD j 0 =
      if j = p then M.getD p 0 ||| v else M.getD j 0 := by
  unfold orByteAt
  have htl : (M.take p).length = p := by simp; omega
  rw [List.append_assoc]
  rcases Nat.lt_trichotomy j p with hj | rfl | hj
  · rw [if_neg (by omega), List.getD_append _ _ _ _ (by omega),
      getD_take _ _ _ _ hj]
  · rw [if_pos rfl, List.getD_append_right _ _ _ _ (by omega), htl]
    simp
  · rw [if_neg (by omega), List.getD_append_right _ _ _ _ (by omega), htl]
    have hsub : j - p = (j - p - 1) + 1 := by omega
    rw [hsub, List.singleton_append, List.getD_cons_succ, getD_drop]
    congr 1
    omega

theorem bitmaskBytes_or (w : List Bool) (r : Nat) (hr : r < w.length)
    (hb : w.getD r false = false) :
    orByteAt (bitmaskBytes w) (r / 8) (1 <<< (r % 8)) =
      bitmaskBytes (w.set r true) := by
  have hrb : r / 8 < (w.length + 7) / 8 := by omega
  have hlen : (bitmaskBytes w).length = (w.length + 7) / 8 :=
    bitmaskBytes_length w
  have hplen : r / 8 < (bitmaskBytes w).length := by rw [hlen]; exact hrb
  have hshift : (1 : Nat) <<< (r % 8) = 2 ^ (r % 8) := by
    rw [Nat.shiftLeft_eq, one_mul]
  apply List.ext_getElem
  · rw [orByteAt_length _ hplen, bitmaskBytes_length, bitmaskBytes_length,
      List.length_set]
  · intro j h1 h2
    rw [← List.getD_eq_getElem _ 0 h1, ← List.getD_eq_getElem _ 0 h2]
    rw [orByteAt_getD _ _ hplen]
    have h2b : j < (w.length + 7) / 8 := by
      rw [bitmaskBytes_length, List.length_set] at h2
      exact h2
    rw [bitmaskBytes_getD (w.set r true) _ (by rw [List.length_set]; exact h2b)]
    by_cases hj : j = r / 8
    · subst hj
      rw [if_pos rfl, bitmaskBytes_getD w _ h2b, hshift]
      have hwindow : ((w.set r true).drop (8 * (r / 8))).take 8 =
          ((w.drop (8 * (r / 8))).take 8).set (r % 8) true := by
        apply List.ext_getElem
        · simp [List.length_set]
        · intro i hi1 hi2
          rw [← List.getD_eq_getElem _ false hi1,
            ← List.getD_eq_getElem _ false hi2]
          have hi8 : i < 8 := by
            simp only [List.length_take, List.length_drop] at hi1
            omega
          rw [window_getD (w.set r true) _ _ hi8]
          by_cases hir : i = r % 8
          · subst hir
            have hidx : 8 * (r / 8) + r % 8 = r := by omega
            rw [hidx, List.getD_eq_getElem?_getD (l := w.set r true),
              List.getElem?_set, if_pos rfl, if_pos hr]
            have hw : r % 8 < ((w.drop (8 * (r / 8))).take 8).length := by
              simp only [List.length_take, List.length_drop]
              omega
            rw [List.getD_eq_getElem?_getD
                (l := ((w.drop (8 * (r / 8))).take 8).set (r % 8) true),
              List.getElem?_set, if_pos rfl, if_pos hw]
          · rw [List.getD_eq_getElem?_getD (l := w.set r true),
              List.getElem?_set, if_neg (by omega),
              ← List.getD_eq_getElem?_getD,
              List.getD_eq_getElem?_getD
                (l := ((w.drop (8 * (r / 8))).take 8).set (r % 8) true),
              List.getElem?_set, if_neg (by omega),
              ← List.getD_eq_getElem?_getD, window_getD w _ _ hi8]
      rw [hwindow]
      have hrlt : r % 8 < ((w.drop (8 * (r / 8))).take 8).length := by
        simp only [List.length_take, List.length_drop]
        omega
      have hbit : ((w.drop (8 * (r / 8))).take 8).getD (r % 8) false = false := by
        rw [window_getD _ _ _ (by omega)]
        have hidx : 8 * (r / 8) + r % 8 = r := by omega
        rw [hidx]
        exact hb
      rw [← byteOfBits_lor_set _ _ hrlt hbit]
    · rw [if_neg hj, bitmaskBytes_getD w _ h2b]
      congr 1
      apply List.ext_getElem
      · simp
      · intro i hi1 hi2
        rw [← List.getD_eq_getElem _ false hi1,
          ← List.getD_eq_getElem _ false hi2]
        have hi8 : i < 8 := by
          simp only [List.length_take, List.length_drop] at hi2
          omega
        rw [window_getD _ _ _ hi8]
        rw [List.getD_eq_getElem?_getD
            (l := ((w.set r true).drop (8 * j)).take 8),
          List.getElem?_take, if_pos hi8, List.getElem?_drop,
          List.getElem?_set, if_neg (by omega),
          ← List.getD_eq_getElem?_getD]

theorem bitmaskBytes_read (bits : List Bool) (r : Nat) (hr : r < bits.length) :
    (bitmaskBytes bits).getD (r / 8) 0 &&& (1 <<< (r % 8)) =
      if bits.getD r false then 1 <<< (r % 8) else 0 := by
  have hshift : (1 : Nat) <<< (r % 8) = 2 ^ (r % 8) := by
    rw [Nat.shiftLeft_eq, one_mul]
  rw [hshift, bitmaskBytes_getD _ _ (by omega), byteOfBits_land,
    window_getD _ _ _ (by omega)]
  have hidx : 8 * (r / 8) + r % 8 = r := by omega
  rw [hidx]

theorem bitmaskBytes_replicate_false (n : Nat) :
    bitmaskBytes (List.replicate n false) = List.replicate ((n + 7) / 8) 0 := by
  apply List.ext_getElem
  · simp [bitmaskBytes_length]
  · intro j h1 h2
    rw [← List.getD_eq_getElem _ 0 h1, ← List.getD_eq_getElem _ 0 h2]
    rw [bitmaskBytes_getD _ _ (by simpa [bitmaskBytes_length] using h1)]
    have hwin : ((List.replicate n false).drop (8 * j)).take 8 =
        List.replicate (min 8 (n - 8 * j)) false := by
      rw [List.drop_replicate, List.take_replicate]
    rw [hwin, byteOfBits_replicate_false]
    rw [List.getD_eq_getElem?_getD, List.getElem?_replicate,
      if_pos (by simpa using h2)]
    rfl

theorem writeBytes_append_right {a : List Nat} (b : List Nat) {pos : Nat}
    (src : List Nat) (h : pos + src.length ≤ a.length) :
    writeBytes (a ++ b) pos src = writeBytes a pos src ++ b := by
  unfold writeBytes
  rw [List.take_append_eq_append_take, List.drop_append_eq_append_drop]
  rw [show pos - a.length = 0 from by omega,
    show pos + src.length - a.length = 0 from by omega]
  simp [List.append_assoc]

theorem orByteAt_append_right {a : List Nat} (b : List Nat) {pos : Nat}
    (v : Nat) (h : pos < a.length) :
    orByteAt (a ++ b) pos v = orByteAt a pos v ++ b := by
  unfold orByteAt
  rw [List.take_append_eq_append_take, List.drop_append_eq_append_drop,
    List.getD_append _ _ _ _ h]
  rw [show pos - a.length = 0 from by omega,
    show pos + 1 - a.length = 0 from by omega]
  simp [List.append_assoc]

theorem entriesFrom_length (sc uc : Nat) (ts : List DataType) :
    (entriesFrom sc uc ts).length = ts.length := by
  induction ts generalizing sc uc with
  | nil => rfl
  | cons t rest ih =>
    cases t <;> simp [entriesFrom, DataType.size, ih]

theorem sizedVals_cons_int (v : Value) (rest : List (DataType × Value)) :
    sizedVals ((DataType.Integer, v) :: rest) = v :: sizedVals rest := by
  simp [sizedVals, DataType.size]

theorem sizedVals_cons_str (v : Value) (rest : List (DataType × Value)) :
    sizedVals ((DataType.String, v) :: rest) = sizedVals rest := by
  simp [sizedVals, DataType.size]

theorem unsizedVals_cons_int (v : Value) (rest : List (DataType × Value)) :
    unsizedVals ((DataType.Integer, v) :: rest) = unsizedVals rest := by
  simp [unsizedVals, DataType.size]

theorem unsizedVals_cons_str (v : Value) (rest : List (DataType × Value)) :
    unsizedVals ((DataType.String, v) :: rest) = v :: unsizedVals rest := by
  simp [unsizedVals, DataType.size]

theorem sizedCountT_cons (t : DataType) (ts : List DataType) :
    sizedCountT (t :: ts) =
      (if t.size.isSome then 1 else 0) + sizedCountT ts := by
  cases t <;> simp [sizedCountT, DataType.size, List.countP_cons] <;> omega

theorem unsizedCountT_cons (t : DataType) (ts : List DataType) :
    unsizedCountT (t :: ts) =
      (if t.size.isNone then 1 else 0) + unsizedCountT ts := by
  cases t <;> simp [unsizedCountT, DataType.size, List.countP_cons] <;> omega

theorem boundary_set (bits : List Bool) (k : Nat) (hk : 1 ≤ k) :
    (bits ++ List.replicate k false).set bits.length true =
      bits ++ true :: List.replicate (k - 1) false := by
  rw [List.set_append, if_neg (by omega), Nat.sub_self]
  congr 1
  cases k with
  | zero => omega
  | succ k => rw [List.replicate_succ, List.set_cons_zero]; rfl

theorem boundary_getD (bits : List Bool) (k : Nat) :
    (bits ++ List.replicate k false).getD bits.length false = false := by
  rw [List.getD_append_right _ _ _ _ le_rfl, Nat.sub_self,
    List.getD_eq_getElem?_getD, List.getElem?_replicate]
  split_ifs <;> rfl

theorem encValue_int_null : encValue .Integer Value.Null = none := rfl

theorem encValue_int_val (tc : TypeContents) :
    encValue .Integer (Value.TypedValue tc) = some (intToBeBytes tc.toInteger) := by
  simp [encValue, DataType.resolve_value, TypeContents.cast, TypeContents.encode]

theorem encValue_str_null : encValue .String Value.Null = none := rfl

theorem encValue_str_val (tc : TypeContents) :
    encValue .String (Value.TypedValue tc) =
      some (utf8Encode tc.toStringChars) := by
  simp [encValue, DataType.resolve_value, TypeContents.cast, TypeContents.encode]

theorem fixedSection_cons_int_null (rest : List (DataType × Value)) :
    fixedSection ((DataType.Integer, Value.Null) :: rest) =
      List.replicate 8 0 ++ fixedSection rest := by
  rw [fixedSection, sizedVals_cons_int, fixedSpec, encValue_int_null]
  rfl

theorem fixedSection_cons_int_val (tc : TypeContents)
    (rest : List (DataType × Value)) :
    fixedSection ((DataType.Integer, Value.TypedValue tc) :: rest) =
      intToBeBytes tc.toInteger ++ fixedSection rest := by
  rw [fixedSection, sizedVals_cons_int, fixedSpec, encValue_int_val]
  rfl

theorem fixedSection_cons_str (v : Value) (rest : List (DataType × Value)) :
    fixedSection ((DataType.String, v) :: rest) = fixedSection rest := by
  rw [fixedSection, sizedVals_cons_str]
  rfl

theorem nullBitsOf_cons_int_null (rest : List (DataType × Value)) :
    nullBitsOf ((DataType.Integer, Value.Null) :: rest) =
      false :: nullBitsOf rest := by
  rw [nullBitsOf, sizedVals_cons_int, List.map_cons, encValue_int_null]
  rfl

theorem nullBitsOf_cons_int_val (tc : TypeContents)
    (rest : List (DataType × Value)) :
    nullBitsOf ((DataType.Integer, Value.TypedValue tc) :: rest) =
      true :: nullBitsOf rest := by
  rw [nullBitsOf, sizedVals_cons_int, List.map_cons, encValue_int_val]
  rfl

theorem nullBitsOf_cons_str (v : Value) (rest : List (DataType × Value)) :
    nullBitsOf ((DataType.String, v) :: rest) = nullBitsOf rest := by
  rw [nullBitsOf, sizedVals_cons_str]
  rfl

theorem dirSection_cons_int (q : Nat) (v : Value)
    (rest : List (DataType × Value)) :
    dirSection q ((DataType.Integer, v) :: rest) = dirSection q rest := by
  rw [dirSection, unsizedVals_cons_int]
  rfl

theorem dirSection_cons_str_null (q : Nat) (rest : List (DataType × Value)) :
    dirSection q ((DataType.String, Value.Null) :: rest) =
      0 :: 0 :: dirSection q rest := by
  rw [dirSection, unsizedVals_cons_str, dirSpec, encValue_str_null]
  rfl

theorem dirSection_cons_str_val (q : Nat) (tc : TypeContents)
    (rest : List (DataType × Value)) :
    dirSection q ((DataType.String, Value.TypedValue tc) :: rest) =
      natToBeBytes 2 q ++
        dirSection (q + (utf8Encode tc.toStringChars).length) rest := by
  rw [dirSection, unsizedVals_cons_str, dirSpec, encValue_str_val]
  rfl

theorem payloadSection_cons_int (v : Value) (rest : List (DataType × Value)) :
    payloadSection ((DataType.Integer, v) :: rest) = payloadSection rest := by
  rw [payloadSection, unsizedVals_cons_int]
  rfl

theorem payloadSection_cons_str_null (rest : List (DataType × Value)) :
    payloadSection ((DataType.String, Value.Null) :: rest) =
      payloadSection rest := by
  rw [payloadSection, unsizedVals_cons_str, paySpec, encValue_str_null]
  rfl

theorem payloadSection_cons_str_val (tc : TypeContents)
    (rest : List (DataType × Value)) :
    payloadSection ((DataType.String, Value.TypedValue tc) :: rest) =
      utf8Encode tc.toStringChars ++ payloadSection rest := by
  rw [payloadSection, unsizedVals_cons_str, paySpec, encValue_str_val]
  rfl

theorem foldl_generateRowStep (c : Columns) (SC UC : Nat)
    (hsl : c.sized_len = 8 * SC) (hsc : c.sized_count = SC)
    (huc : c.unsized_count = UC) :
    ∀ (todo : List (DataType × Value)) (sc uc : Nat) (bits : List Bool)
      (F D P : List Nat),
      F.length = 8 * sc →
      bits.length = sc →
      D.length = 2 * uc →
      sc + sizedCountT (todo.map Prod.fst) = SC →
      uc + unsizedCountT (todo.map Prod.fst) = UC →
      8 * SC + (SC + 7) / 8 + 2 * UC + P.length +
        (payloadSection todo).length ≤ 65535 →
      List.foldl (generateRowStep c)
        (F ++ List.replicate (8 * SC - 8 * sc) 0 ++
          bitmaskBytes (bits ++ List.replicate (SC - sc) false) ++
          D ++ List.replicate (2 * UC - 2 * uc) 0 ++ P)
        ((entriesFrom sc uc (todo.map Prod.fst)).zip (todo.map Prod.snd)) =
      F ++ fixedSection todo ++ bitmaskBytes (bits ++ nullBitsOf todo) ++
        D ++ dirSection (8 * SC + (SC + 7) / 8 + 2 * UC + P.length) todo ++
        P ++ payloadSection todo := by
  intro todo
  induction todo with
  | nil =>
    intro sc uc bits F D P hF hbits hD hcs hcu _hsize
    have h1 : sc = SC := by
      simpa [sizedCountT] using hcs
    have h2 : uc = UC := by
      simpa [unsizedCountT] using hcu
    subst h1
    subst h2
    simp [entriesFrom, fixedSection, sizedVals, nullBitsOf, dirSection,
      unsizedVals, payloadSection, fixedSpec, dirSpec, paySpec]
  | cons hd rest ih =>
    obtain ⟨t, v⟩ := hd
    intro sc uc bits F D P hF hbits hD hcs hcu hsize
    cases t with
    | Integer =>
      have hcs1 : (sc + 1) + sizedCountT (rest.map Prod.fst) = SC := by
        rw [List.map_cons, sizedCountT_cons] at hcs
        simp [DataType.size] at hcs
        omega
      have hcu1 : uc + unsizedCountT (rest.map Prod.fst) = UC := by
        rw [List.map_cons, unsizedCountT_cons] at hcu
        simpa [DataType.size] using hcu
      have hscSC : sc < SC := by omega
      have hentries : entriesFrom sc uc ((⟨DataType.Integer, v⟩ :: rest).map Prod.fst) =
          ⟨DataType.Integer, 8 * sc, sc⟩ ::
            entriesFrom (sc + 1) uc (rest.map Prod.fst) := by
        simp [entriesFrom, DataType.size]
      rw [hentries, List.map_cons, List.zip_cons_cons, List.foldl_cons]
      cases v with
      | Null =>
        have hstep : ∀ row, generateRowStep c row (⟨DataType.Integer, 8 * sc, sc⟩, Value.Null) = row := by
          intro row
          simp [generateRowStep, DataType.size, DataType.resolve_value]
        rw [hstep]
        have hz1 : List.replicate (8 * SC - 8 * sc) (0 : Nat) =
            List.replicate 8 0 ++ List.replicate (8 * SC - 8 * (sc + 1)) 0 := by
          rw [← List.replicate_add]
          congr 1
          omega
        have hz2 : List.replicate (SC - sc) false =
            false :: List.replicate (SC - (sc + 1)) false := by
          rw [show SC - sc = (SC - (sc + 1)) + 1 from by omega,
            List.replicate_succ]
        have hbuf :
            F ++ List.replicate (8 * SC - 8 * sc) 0 ++
              bitmaskBytes (bits ++ List.replicate (SC - sc) false) ++
              D ++ List.replicate (2 * UC - 2 * uc) 0 ++ P =
            (F ++ List.replicate 8 0) ++
              List.replicate (8 * SC - 8 * (sc + 1)) 0 ++
              bitmaskBytes ((bits ++ [false]) ++
                List.replicate (SC - (sc + 1)) false) ++
              D ++ List.replicate (2 * UC - 2 * uc) 0 ++ P := by
          rw [hz1, hz2]
          simp [List.append_assoc]
        rw [hbuf]
        rw [ih (sc + 1) uc (bits ++ [false]) (F ++ List.replicate 8 0) D P
          (by simp [hF]; omega) (by simp [hbits]) hD hcs1 hcu1
          (by rw [payloadSection_cons_int] at hsize; exact hsize)]
        rw [fixedSection_cons_int_null, nullBitsOf_cons_int_null,
          dirSection_cons_int, payloadSection_cons_int]
        simp [List.append_assoc]
      | TypedValue tc =>
        have hstep : ∀ row, generateRowStep c row
            (⟨DataType.Integer, 8 * sc, sc⟩, Value.TypedValue tc) =
            writeBytes (orByteAt row (c.bitmask_start + sc / 8) (1 <<< (sc % 8)))
              (8 * sc) (intToBeBytes tc.toInteger) := by
          intro row
          simp [generateRowStep, DataType.size, DataType.resolve_value,
            ColumnEntry.bitmask_index, TypeContents.cast, TypeContents.encode]
        rw [hstep]
        have hbstart : c.bitmask_start = 8 * SC := by
          simp [Columns.bitmask_start, hsl]
        rw [hbstart]
        have hZ1len : (List.replicate (8 * SC - 8 * sc) (0 : Nat)).length =
            8 * SC - 8 * sc := by simp
        have hMlen : (bitmaskBytes (bits ++ List.replicate (SC - sc) false)).length =
            (SC + 7) / 8 := by
          rw [bitmaskBytes_length]
          simp [hbits]
          congr 1
          omega
        have hw_len : (bits ++ List.replicate (SC - sc) false).length = SC := by
          simp [hbits]
          omega
        have hor :
            orByteAt (F ++ List.replicate (8 * SC - 8 * sc) 0 ++
                bitmaskBytes (bits ++ List.replicate (SC - sc) false) ++
                D ++ List.replicate (2 * UC - 2 * uc) 0 ++ P)
              (8 * SC + sc / 8) (1 <<< (sc % 8)) =
            F ++ List.replicate (8 * SC - 8 * sc) 0 ++
              bitmaskBytes ((bits ++ [true]) ++
                List.replicate (SC - (sc + 1)) false) ++
              D ++ List.replicate (2 * UC - 2 * uc) 0 ++ P := by
          have e1 : F ++ List.replicate (8 * SC - 8 * sc) 0 ++
              bitmaskBytes (bits ++ List.replicate (SC - sc) false) ++
              D ++ List.replicate (2 * UC - 2 * uc) 0 ++ P =
              (F ++ List.replicate (8 * SC - 8 * sc) 0) ++
              (bitmaskBytes (bits ++ List.replicate (SC - sc) false) ++
                (D ++ List.replicate (2 * UC - 2 * uc) 0 ++ P)) := by
            simp [List.append_assoc]
          rw [e1]
          have hlenFZ : (F ++ List.replicate (8 * SC - 8 * sc) (0 : Nat)).length =
              8 * SC := by
            simp [hF]
            omega
          rw [orByteAt_append_left _ _ (by rw [hlenFZ]; omega)]
          rw [hlenFZ, show 8 * SC + sc / 8 - 8 * SC = sc / 8 from by omega]
          rw [orByteAt_append_right _ _ (by rw [hMlen]; omega)]
          have hgd : (bits ++ List.replicate (SC - sc) false).getD sc false =
              false := by
            have h := boundary_getD bits (SC - sc)
            rw [hbits] at h
            exact h
          have hset := bitmaskBytes_or (bits ++ List.replicate (SC - sc) false) sc
            (by rw [hw_len]; omega) hgd
          rw [hset]
          have hsetb : (bits ++ List.replicate (SC - sc) false).set sc true =
              bits ++ [true] ++ List.replicate (SC - (sc + 1)) false := by
            have h := boundary_set bits (SC - sc) (by omega)
            rw [hbits] at h
            rw [h, show SC - sc - 1 = SC - (sc + 1) from by omega]
            simp
          rw [hsetb]
          simp [List.append_assoc]
        rw [hor]
        have hwr :
            writeBytes (F ++ List.replicate (8 * SC - 8 * sc) 0 ++
                bitmaskBytes ((bits ++ [true]) ++
                  List.replicate (SC - (sc + 1)) false) ++
                D ++ List.replicate (2 * UC - 2 * uc) 0 ++ P)
              (8 * sc) (intToBeBytes tc.toInteger) =
            (F ++ intToBeBytes tc.toInteger) ++
              List.replicate (8 * SC - 8 * (sc + 1)) 0 ++
              bitmaskBytes ((bits ++ [true]) ++
                List.replicate (SC - (sc + 1)) false) ++
              D ++ List.replicate (2 * UC - 2 * uc) 0 ++ P := by
          have e1 : F ++ List.replicate (8 * SC - 8 * sc) 0 ++
              bitmaskBytes ((bits ++ [true]) ++
                List.replicate (SC - (sc + 1)) false) ++
              D ++ List.replicate (2 * UC - 2 * uc) 0 ++ P =
              F ++ (List.replicate (8 * SC - 8 * sc) 0 ++
                (bitmaskBytes ((bits ++ [true]) ++
                  List.replicate (SC - (sc + 1)) false) ++
                  (D ++ List.replicate (2 * UC - 2 * uc) 0 ++ P))) := by
            simp [List.append_assoc]
          rw [e1]
          rw [writeBytes_append_left _ _ (by omega)]
          rw [show 8 * sc - F.length = 0 from by omega]
          rw [writeBytes_zero_of_length_le _ (by
            simp [intToBeBytes_length]
            omega)]
          rw [intToBeBytes_length]
          rw [List.drop_append_eq_append_drop, List.drop_replicate]
          rw [show (8 : Nat) - (List.replicate (8 * SC - 8 * sc) (0 : Nat)).length = 0
            from by simp; omega]
          rw [show 8 * SC - 8 * sc - 8 = 8 * SC - 8 * (sc + 1) from by omega]
          simp [List.append_assoc]
        rw [hwr]
        rw [ih (sc + 1) uc (bits ++ [true]) (F ++ intToBeBytes tc.toInteger) D P
          (by simp [hF, intToBeBytes_length]; omega) (by simp [hbits]) hD
          hcs1 hcu1
          (by rw [payloadSection_cons_int] at hsize; exact hsize)]
        rw [fixedSection_cons_int_val, nullBitsOf_cons_int_val,
          dirSection_cons_int, payloadSection_cons_int]
        simp [List.append_assoc]
    | String =>
      have hcs1 : sc + sizedCountT (rest.map Prod.fst) = SC := by
        rw [List.map_cons, sizedCountT_cons] at hcs
        simpa [DataType.size] using hcs
      have hcu1 : (uc + 1) + unsizedCountT (rest.map Prod.fst) = UC := by
        rw [List.map_cons, unsizedCountT_cons] at hcu
        simp [DataType.size] at hcu
        omega
      have hucUC : uc < UC := by omega
      have hentries : entriesFrom sc uc ((⟨DataType.String, v⟩ :: rest).map Prod.fst) =
          ⟨DataType.String, 2 * uc, 0⟩ ::
            entriesFrom sc (uc + 1) (rest.map Prod.fst) := by
        simp [entriesFrom, DataType.size]
      rw [hentries, List.map_cons, List.zip_cons_cons, List.foldl_cons]
      cases v with
      | Null =>
        have hstep : ∀ row, generateRowStep c row
            (⟨DataType.String, 2 * uc, 0⟩, Value.Null) = row := by
          intro row
          simp [generateRowStep, DataType.size, DataType.resolve_value]
        rw [hstep]
        have hz2 : List.replicate (2 * UC - 2 * uc) (0 : Nat) =
            0 :: 0 :: List.replicate (2 * UC - 2 * (uc + 1)) 0 := by
          rw [show 2 * UC - 2 * uc = (2 * UC - 2 * (uc + 1)) + 1 + 1 from by omega]
          rw [List.replicate_succ, List.replicate_succ]
        have hbuf :
            F ++ List.replicate (8 * SC - 8 * sc) 0 ++
              bitmaskBytes (bits ++ List.replicate (SC - sc) false) ++
              D ++ List.replicate (2 * UC - 2 * uc) 0 ++ P =
            F ++ List.replicate (8 * SC - 8 * sc) 0 ++
              bitmaskBytes (bits ++ List.replicate (SC - sc) false) ++
              (D ++ [0, 0]) ++
              List.replicate (2 * UC - 2 * (uc + 1)) 0 ++ P := by
          rw [hz2]
          simp [List.append_assoc]
        rw [hbuf]
        rw [ih sc (uc + 1) bits F (D ++ [0, 0]) P hF hbits
          (by simp [hD]; omega) hcs1 hcu1
          (by rw [payloadSection_cons_str_null] at hsize; exact hsize)]
        rw [fixedSection_cons_str, nullBitsOf_cons_str,
          dirSection_cons_str_null, payloadSection_cons_str_null]
        simp [List.append_assoc]
      | TypedValue tc =>
        have hstep : ∀ row, generateRowStep c row
            (⟨DataType.String, 2 * uc, 0⟩, Value.TypedValue tc) =
            append_unsized (c.directory_start + 2 * uc)
              (utf8Encode tc.toStringChars) row := by
          intro row
          simp [generateRowStep, DataType.size, DataType.resolve_value,
            TypeContents.cast, TypeContents.encode]
        rw [hstep]
        have hdstart : c.directory_start = 8 * SC + (SC + 7) / 8 := by
          simp [Columns.directory_start, Columns.bitmask_size, hsl, hsc]
        rw [hdstart]
        have hMlen : (bitmaskBytes (bits ++ List.replicate (SC - sc) false)).length =
            (SC + 7) / 8 := by
          rw [bitmaskBytes_length]
          simp [hbits]
          congr 1
          omega
        have hbuflen :
            (F ++ List.replicate (8 * SC - 8 * sc) 0 ++
              bitmaskBytes (bits ++ List.replicate (SC - sc) false) ++
              D ++ List.replicate (2 * UC - 2 * uc) 0 ++ P).length =
            8 * SC + (SC + 7) / 8 + 2 * UC + P.length := by
          simp [hF, hMlen, hD]
          omega
        have hQle : 8 * SC + (SC + 7) / 8 + 2 * UC + P.length ≤ 65535 := by
          omega
        have happ :
            append_unsized (8 * SC + (SC + 7) / 8 + 2 * uc)
              (utf8Encode tc.toStringChars)
              (F ++ List.replicate (8 * SC - 8 * sc) 0 ++
                bitmaskBytes (bits ++ List.replicate (SC - sc) false) ++
                D ++ List.replicate (2 * UC - 2 * uc) 0 ++ P) =
            F ++ List.replicate (8 * SC - 8 * sc) 0 ++
              bitmaskBytes (bits ++ List.replicate (SC - sc) false) ++
              (D ++ natToBeBytes 2 (8 * SC + (SC + 7) / 8 + 2 * UC + P.length)) ++
              List.replicate (2 * UC - 2 * (uc + 1)) 0 ++
              (P ++ utf8Encode tc.toStringChars) := by
          unfold append_unsized
          rw [hbuflen, Nat.mod_eq_of_lt (by omega)]
          have e1 : F ++ List.replicate (8 * SC - 8 * sc) 0 ++
              bitmaskBytes (bits ++ List.replicate (SC - sc) false) ++
              D ++ List.replicate (2 * UC - 2 * uc) 0 ++ P =
              (F ++ List.replicate (8 * SC - 8 * sc) 0 ++
                bitmaskBytes (bits ++ List.replicate (SC - sc) false) ++ D) ++
              (List.replicate (2 * UC - 2 * uc) 0 ++ P) := by
            simp [List.append_assoc]
          rw [e1]
          have hpre : (F ++ List.replicate (8 * SC - 8 * sc) 0 ++
              bitmaskBytes (bits ++ List.replicate (SC - sc) false) ++ D).length =
              8 * SC + (SC + 7) / 8 + 2 * uc := by
            simp [hF, hMlen, hD]
            omega
          rw [writeBytes_append_left _ _ (by omega)]
          rw [hpre, Nat.sub_self]
          rw [writeBytes_zero_of_length_le _ (by
            simp [natToBeBytes_length]
            omega)]
          rw [natToBeBytes_length]
          rw [List.drop_append_eq_append_drop, List.drop_replicate,
            List.length_replicate]
          rw [show (2 : Nat) - (2 * UC - 2 * uc) = 0 from by omega]
          rw [show 2 * UC - 2 * uc - 2 = 2 * UC - 2 * (uc + 1) from by omega]
          simp [List.append_assoc]
        rw [happ]
        rw [ih sc (uc + 1) bits F
          (D ++ natToBeBytes 2 (8 * SC + (SC + 7) / 8 + 2 * UC + P.length))
          (P ++ utf8Encode tc.toStringChars) hF hbits
          (by simp [hD, natToBeBytes_length]; omega) hcs1 hcu1
          (by
            rw [payloadSection_cons_str_val] at hsize
            simp only [List.length_append] at hsize ⊢
            omega)]
        rw [fixedSection_cons_str, nullBitsOf_cons_str,
          dirSection_cons_str_val, payloadSection_cons_str_val]
        rw [show (8 * SC + (SC + 7) / 8 + 2 * UC +
            (P ++ utf8Encode tc.toStringChars).length) =
            (8 * SC + (SC + 7) / 8 + 2 * UC + P.length) +
              (utf8Encode tc.toStringChars).length from by simp; omega]
        simp [List.append_assoc]

theorem buildColumns_go_spec :
    ∀ (l : List (String × DataType)) (c0 c : Columns),
      buildColumns.go c0 l = .ok c →
      c0.sized_len = 8 * c0.sized_count →
      c.columns.map Prod.snd =
        c0.columns.map Prod.snd ++
          entriesFrom c0.sized_count c0.unsized_count (l.map Prod.snd) ∧
      c.sized_count = c0.sized_count + sizedCountT (l.map Prod.snd) ∧
      c.sized_len = 8 * c.sized_count ∧
      c.unsized_count = c0.unsized_count + unsizedCountT (l.map Prod.snd) := by
  intro l
  induction l with
  | nil =>
    intro c0 c h hinv
    simp only [buildColumns.go] at h
    cases h
    simp [entriesFrom, sizedCountT, unsizedCountT, hinv]
  | cons p rest ih =>
    obtain ⟨name, t⟩ := p
    intro c0 c h hinv
    simp only [buildColumns.go, Columns.add_column] at h
    by_cases hc : c0.contains_column name
    · rw [if_pos hc] at h
      simp only [Bind.bind, Except.bind] at h
      simp at h
    · rw [if_neg hc] at h
      cases t with
      | Integer =>
        simp only [DataType.size, Bind.bind, Except.bind] at h
        have hr := ih _ _ h (by simp [hinv]; ring)
        simp only [List.map_append, List.map_cons, List.map_nil] at hr
        obtain ⟨h1, h2, h3, h4⟩ := hr
        refine ⟨?_, ?_, h3, ?_⟩
        · rw [h1, List.map_cons]
          simp only [entriesFrom, DataType.size, List.map_cons]
          rw [hinv]
          simp [List.append_assoc]
        · rw [h2, List.map_cons, sizedCountT_cons]
          simp [DataType.size]
          omega
        · rw [h4, List.map_cons, unsizedCountT_cons]
          simp [DataType.size]
      | String =>
        simp only [DataType.size, Bind.bind, Except.bind] at h
        have hr := ih _ _ h (by simp [hinv])
        simp only [List.map_append, List.map_cons, List.map_nil] at hr
        obtain ⟨h1, h2, h3, h4⟩ := hr
        refine ⟨?_, ?_, h3, ?_⟩
        · rw [h1, List.map_cons]
          simp only [entriesFrom, DataType.size, List.map_cons]
          simp [List.append_assoc]
          ring
        · rw [h2, List.map_cons, sizedCountT_cons]
          simp [DataType.size]
        · rw [h4, List.map_cons, unsizedCountT_cons]
          simp [DataType.size]
          omega

theorem generate_row_layout (l : List (String × DataType)) (c : Columns)
    (vs : List Value) (hbuild : buildColumns l = .ok c)
    (hlen : vs.length = l.length)
    (hsize : c.fixed_len +
      (payloadSection ((l.map Prod.snd).zip vs)).length ≤ 65535) :
    c.generate_row vs = .ok (
      fixedSection ((l.map Prod.snd).zip vs) ++
      bitmaskBytes (nullBitsOf ((l.map Prod.snd).zip vs)) ++
      dirSection c.fixed_len ((l.map Prod.snd).zip vs) ++
      payloadSection ((l.map Prod.snd).zip vs)) := by
  obtain ⟨h1, h2, h3, h4⟩ :=
    buildColumns_go_spec l Columns.new c hbuild (by rfl)
  simp only [Columns.new, List.map_nil, List.nil_append] at h1 h2 h4
  rw [Nat.zero_add] at h2 h4
  set ts := l.map Prod.snd with hts
  set SC := sizedCountT ts with hSC
  set UC := unsizedCountT ts with hUC
  have hcollen : c.columns.length = l.length := by
    have := congrArg List.length h1
    simpa [entriesFrom_length, hts, List.length_map] using this
  have hfl : c.fixed_len = 8 * SC + (SC + 7) / 8 + 2 * UC := by
    simp [Columns.fixed_len, Columns.bitmask_size, h3, h2, h4]
    ring
  have htfst : ((ts.zip vs).map Prod.fst) = ts := by
    apply List.map_fst_zip
    simp [hts, hlen]
  have htsnd : ((ts.zip vs).map Prod.snd) = vs := by
    apply List.map_snd_zip
    simp [hts, hlen]
  unfold Columns.generate_row
  rw [if_neg (by simp [hcollen, hlen])]
  have hinit : List.replicate c.fixed_len (0 : Nat) =
      ([] : List Nat) ++ List.replicate (8 * SC - 8 * 0) 0 ++
        bitmaskBytes (([] : List Bool) ++ List.replicate (SC - 0) false) ++
        ([] : List Nat) ++ List.replicate (2 * UC - 2 * 0) 0 ++ [] := by
    rw [hfl]
    simp [bitmaskBytes_replicate_false, ← List.replicate_add]
  rw [h1, hinit]
  have hmain := foldl_generateRowStep c SC UC (by rw [h3, h2]) h2 h4
    (ts.zip vs) 0 0 [] [] [] []
    (by simp) (by simp) (by simp)
    (by rw [htfst, Nat.zero_add])
    (by rw [htfst, Nat.zero_add])
    (by simpa [hfl] using hsize)
  rw [htfst, htsnd] at hmain
  rw [hmain]
  simp [hfl]

theorem entriesFrom_get_int (ts : List DataType) :
    ∀ (i sc uc : Nat), ts[i]? = some DataType.Integer →
      (entriesFrom sc uc ts)[i]? =
        some ⟨DataType.Integer, 8 * (sc + sizedCountT (ts.take i)),
          sc + sizedCountT (ts.take i)⟩ := by
  induction ts with
  | nil => intro i sc uc h; simp at h
  | cons t rest ih =>
    intro i sc uc h
    cases i with
    | zero =>
      simp only [List.getElem?_cons_zero, Option.some_inj] at h
      subst h
      simp [entriesFrom, DataType.size, sizedCountT]
    | succ i =>
      simp only [List.getElem?_cons_succ] at h
      cases t with
      | Integer =>
        simp only [entriesFrom, DataType.size, List.getElem?_cons_succ]
        rw [ih i (sc + 1) uc h]
        simp only [List.take_succ_cons, sizedCountT_cons, DataType.size,
          Option.isSome_some, if_true, Option.some_inj, ColumnEntry.mk.injEq,
          eq_self_iff_true, true_and, and_true]
        omega
      | String =>
        simp only [entriesFrom, DataType.size, List.getElem?_cons_succ]
        rw [ih i sc (uc + 1) h]
        simp only [List.take_succ_cons, sizedCountT_cons, DataType.size,
          Option.isSome_none, Bool.false_eq_true, if_false, Option.some_inj,
          ColumnEntry.mk.injEq, eq_self_iff_true, true_and, and_true]
        omega

theorem entriesFrom_get_str (ts : List DataType) :
    ∀ (i sc uc : Nat), ts[i]? = some DataType.String →
      (entriesFrom sc uc ts)[i]? =
        some ⟨DataType.String, 2 * (uc + unsizedCountT (ts.take i)), 0⟩ := by
  induction ts with
  | nil => intro i sc uc h; simp at h
  | cons t rest ih =>
    intro i sc uc h
    cases i with
    | zero =>
      simp only [List.getElem?_cons_zero, Option.some_inj] at h
      subst h
      simp [entriesFrom, DataType.size, unsizedCountT]
    | succ i =>
      simp only [List.getElem?_cons_succ] at h
      cases t with
      | Integer =>
        simp only [entriesFrom, DataType.size, List.getElem?_cons_succ]
        rw [ih i (sc + 1) uc h]
        simp only [List.take_succ_cons, unsizedCountT_cons, DataType.size,
          Option.isNone_some, Bool.false_eq_true, if_false, Option.some_inj,
          ColumnEntry.mk.injEq, eq_self_iff_true, true_and, and_true]
        omega
      | String =>
        simp only [entriesFrom, DataType.size, List.getElem?_cons_succ]
        rw [ih i sc (uc + 1) h]
        simp only [List.take_succ_cons, unsizedCountT_cons, DataType.size,
          Option.isNone_none, if_true, Option.some_inj, ColumnEntry.mk.injEq,
          eq_self_iff_true, true_and, and_true]
        omega

theorem sizedVals_append (a b : List (DataType × Value)) :
    sizedVals (a ++ b) = sizedVals a ++ sizedVals b := by
  simp [sizedVals, List.filter_append]

theorem unsizedVals_append (a b : List (DataType × Value)) :
    unsizedVals (a ++ b) = unsizedVals a ++ unsizedVals b := by
  simp [unsizedVals, List.filter_append]

theorem sizedVals_length (tvs : List (DataType × Value)) :
    (sizedVals tvs).length = sizedCountT (tvs.map Prod.fst) := by
  induction tvs with
  | nil => rfl
  | cons p rest ih =>
    obtain ⟨t, v⟩ := p
    cases t with
    | Integer => rw [sizedVals_cons_int]; simp [sizedCountT_cons, DataType.size, ih]; omega
    | String => rw [sizedVals_cons_str]; simp [sizedCountT_cons, DataType.size, ih]

theorem unsizedVals_length (tvs : List (DataType × Value)) :
    (unsizedVals tvs).length = unsizedCountT (tvs.map Prod.fst) := by
  induction tvs with
  | nil => rfl
  | cons p rest ih =>
    obtain ⟨t, v⟩ := p
    cases t with
    | Integer => rw [unsizedVals_cons_int]; simp [unsizedCountT_cons, DataType.size, ih]
    | String => rw [unsizedVals_cons_str]; simp [unsizedCountT_cons, DataType.size, ih]; omega

theorem nullBitsOf_length (tvs : List (DataType × Value)) :
    (nullBitsOf tvs).length = sizedCountT (tvs.map Prod.fst) := by
  rw [nullBitsOf, List.length_map, sizedVals_length]

theorem fixedSpec_block (svs : List Value) :
    ∀ (k : Nat), k < svs.length →
      ((fixedSpec svs).drop (8 * k)).take 8 =
        match encValue .Integer (svs.getD k .Null) with
        | some bs => bs
        | none => List.replicate 8 0 := by
  induction svs with
  | nil => intro k hk; simp at hk
  | cons v rest ih =>
    intro k hk
    cases k with
    | zero =>
      simp only [fixedSpec, Nat.mul_zero, List.drop_zero, List.getD_cons_zero]
      cases h : encValue .Integer v with
      | none =>
        simp only [h]
        rw [List.take_append_eq_append_take]
        simp
      | some bs =>
        simp only [h]
        rw [List.take_append_eq_append_take,
          List.take_of_length_le (by rw [encValue_integer_length h]),
          encValue_integer_length h]
        simp
    | succ k =>
      simp only [fixedSpec, List.getD_cons_succ]
      have hlen8 : (match encValue .Integer v with
          | some bs => bs
          | none => List.replicate 8 0).length = 8 := by
        cases h : encValue .Integer v with
        | none => simp
        | some bs => simp [encValue_integer_length h]
      rw [List.drop_append_eq_append_drop, hlen8,
        show 8 * (k + 1) - 8 = 8 * k from by omega,
        List.drop_eq_nil_of_le (by rw [hlen8]; omega)]
      simp only [List.nil_append]
      exact ih k (by simpa using hk)

theorem dirSpec_slot (us : List Value) :
    ∀ (q j : Nat), j < us.length →
      ((dirSpec q us).drop (2 * j)).take 2 =
        match encValue .String (us.getD j .Null) with
        | some _ => natToBeBytes 2 (q + (paySpec (us.take j)).length)
        | none => [0, 0] := by
  induction us with
  | nil => intro q j hj; simp at hj
  | cons v rest ih =>
    intro q j hj
    cases j with
    | zero =>
      simp only [Nat.mul_zero, List.drop_zero, List.getD_cons_zero,
        List.take_zero]
      cases h : encValue .String v with
      | none => simp [dirSpec, h, paySpec]
      | some bs =>
        simp only [dirSpec, h, paySpec]
        rw [List.take_append_eq_append_take,
          List.take_of_length_le (by rw [natToBeBytes_length]),
          natToBeBytes_length]
        simp
    | succ j =>
      simp only [List.getD_cons_succ, List.take_succ_cons]
      cases h : encValue .String v with
      | none =>
        simp only [dirSpec, h, paySpec, List.nil_append]
        rw [show 2 * (j + 1) = (2 * j).succ.succ from by omega,
          List.drop_succ_cons, List.drop_succ_cons]
        exact ih q j (by simpa using hj)
      | some bs =>
        simp only [dirSpec, h, paySpec]
        rw [List.drop_append_eq_append_drop, natToBeBytes_length,
          List.drop_eq_nil_of_le (by rw [natToBeBytes_length]; omega),
          List.nil_append,
          show 2 * (j + 1) - 2 = 2 * j from by omega,
          ih (q + bs.length) j (by simpa using hj)]
        cases h2 : encValue .String (rest.getD j .Null) with
        | none => simp
        | some cs =>
          simp only [List.length_append]
          rw [Nat.add_assoc]

theorem sizedCountT_append (a b : List DataType) :
    sizedCountT (a ++ b) = sizedCountT a + sizedCountT b := by
  simp [sizedCountT, List.countP_append]

theorem unsizedCountT_append (a b : List DataType) :
    unsizedCountT (a ++ b) = unsizedCountT a + unsizedCountT b := by
  simp [unsizedCountT, List.countP_append]

theorem sizedVals_get (tvs : List (DataType × Value)) :
    ∀ (i : Nat) (v : Value), tvs[i]? = some (DataType.Integer, v) →
      (sizedVals tvs)[sizedCountT ((tvs.map Prod.fst).take i)]? = some v := by
  induction tvs with
  | nil => intro i v h; simp at h
  | cons p rest ih =>
    obtain ⟨t, w⟩ := p
    intro i v h
    cases i with
    | zero =>
      simp only [List.getElem?_cons_zero, Option.some_inj, Prod.mk.injEq] at h
      obtain ⟨ht, hv⟩ := h
      subst ht; subst hv
      rw [sizedVals_cons_int]
      simp [sizedCountT]
    | succ i =>
      simp only [List.getElem?_cons_succ] at h
      cases t with
      | Integer =>
        rw [sizedVals_cons_int]
        simp only [List.map_cons, List.take_succ_cons, sizedCountT_cons,
          DataType.size, Option.isSome_some, if_true]
        rw [show 1 + sizedCountT ((rest.map Prod.fst).take i) =
            sizedCountT ((rest.map Prod.fst).take i) + 1 from by omega,
          List.getElem?_cons_succ]
        exact ih i v h
      | String =>
        rw [sizedVals_cons_str]
        simp only [List.map_cons, List.take_succ_cons, sizedCountT_cons,
          DataType.size, Option.isSome_none, Bool.false_eq_true, if_false,
          Nat.zero_add]
        exact ih i v h

theorem unsizedVals_get (tvs : List (DataType × Value)) :
    ∀ (i : Nat) (v : Value), tvs[i]? = some (DataType.String, v) →
      (unsizedVals tvs)[unsizedCountT ((tvs.map Prod.fst).take i)]? = some v := by
  induction tvs with
  | nil => intro i v h; simp at h
  | cons p rest ih =>
    obtain ⟨t, w⟩ := p
    intro i v h
    cases i with
    | zero =>
      simp only [List.getElem?_cons_zero, Option.some_inj, Prod.mk.injEq] at h
      obtain ⟨ht, hv⟩ := h
      subst ht; subst hv
      rw [unsizedVals_cons_str]
      simp [unsizedCountT]
    | succ i =>
      simp only [List.getElem?_cons_succ] at h
      cases t with
      | Integer =>
        rw [unsizedVals_cons_int]
        simp only [List.map_cons, List.take_succ_cons, unsizedCountT_cons,
          DataType.size, Option.isNone_some, Bool.false_eq_true, if_false,
          Nat.zero_add]
        exact ih i v h
      | String =>
        rw [unsizedVals_cons_str]
        simp only [List.map_cons, List.take_succ_cons, unsizedCountT_cons,
          DataType.size, Option.isNone_none, if_true]
        rw [show 1 + unsizedCountT ((rest.map Prod.fst).take i) =
            unsizedCountT ((rest.map Prod.fst).take i) + 1 from by omega,
          List.getElem?_cons_succ]
        exact ih i v h

theorem paySpec_nil_of_all_null (us : List Value)
    (h : us.any (fun v => (encValue .String v).isSome) = false) :
    paySpec us = [] := by
  induction us with
  | nil => rfl
  | cons v rest ih =>
    simp only [List.any_cons, Bool.or_eq_false_iff] at h
    obtain ⟨h1, h2⟩ := h
    rw [paySpec, ih h2]
    cases hv : encValue .String v with
    | none => simp
    | some bs => rw [hv] at h1; simp at h1

theorem paySpec_take_length_le (us : List Value) (j : Nat) :
    (paySpec (us.take j)).length ≤ (paySpec us).length := by
  conv_rhs => rw [← List.take_append_drop j us]
  rw [paySpec_append, List.length_append]
  omega

theorem slice_first (mid post : List Nat) (n k : Nat)
    (h : n + k ≤ mid.length) :
    ((mid ++ post).drop n).take k = (mid.drop n).take k := by
  rw [List.drop_append_eq_append_drop,
    show n - mid.length = 0 from by omega, List.drop_zero,
    List.take_append_eq_append_take,
    show k - (mid.drop n).length = 0 from by
      rw [List.length_drop]; omega,
    List.take_zero, List.append_nil]

theorem slice_after (pre mid post : List Nat) (n k : Nat)
    (h : n + k ≤ mid.length) :
    ((pre ++ mid ++ post).drop (pre.length + n)).take k =
      (mid.drop n).take k := by
  rw [List.append_assoc, List.drop_append_eq_append_drop,
    List.drop_eq_nil_of_le (by omega),
    show pre.length + n - pre.length = n from by omega,
    List.nil_append, slice_first _ _ _ _ h]

theorem beBytesToNat_zero_zero : beBytesToNat [0, 0] = 0 := by
  decide

theorem natToBeBytes_two_ne_dud (x : Nat) (h0 : 0 < x) (h1 : x < 65536) :
    natToBeBytes 2 x ≠ [0, 0] := by
  intro hcontra
  have := beBytesToNat_natToBeBytes (n := 2) (v := x) (by norm_num; omega)
  rw [hcontra, beBytesToNat_zero_zero] at this
  omega

theorem findEnd_scan (row : List Nat) (us : List Value) (q0 dstart UC : Nat)
    (hUC : us.length = UC) (hUC1 : 1 ≤ UC) (hq0 : 0 < q0)
    (hqfit : ∀ m, m ≤ UC → q0 + (paySpec (us.take m)).length < 65536)
    (hslot : ∀ m, m < UC → ((row.drop (dstart + 2 * m)).take 2) =
      match encValue .String (us.getD m .Null) with
      | some _ => natToBeBytes 2 (q0 + (paySpec (us.take m)).length)
      | none => [0, 0]) :
    ∀ (fuel m : Nat), m ≤ UC →
      dstart + 2 * (UC - 1) + 2 - (dstart + 2 * m) ≤ fuel →
      findUnsizedEndAux row (dstart + 2 * (UC - 1)) fuel (dstart + 2 * m) =
        if (us.drop m).any (fun v => (encValue .String v).isSome) then
          q0 + (paySpec (us.take m)).length
        else row.length := by
  intro fuel
  induction fuel with
  | zero =>
    intro m hm hf
    have hmUC : m = UC := by omega
    rw [show us.drop m = [] from
      List.drop_eq_nil_of_le (by omega)]
    simp [findUnsizedEndAux]
  | succ fuel ih =>
    intro m hm hf
    rw [findUnsizedEndAux]
    by_cases hend : dstart + 2 * m > dstart + 2 * (UC - 1)
    · rw [if_pos hend]
      have hmUC : m = UC := by omega
      rw [show us.drop m = [] from
        List.drop_eq_nil_of_le (by omega)]
      simp
    · rw [if_neg hend]
      have hmlt : m < UC := by omega
      have hdropm : us.drop m = us.getD m .Null :: us.drop (m + 1) := by
        rw [List.drop_eq_getElem_cons (by omega)]
        congr 1
        rw [List.getD_eq_getElem?_getD, List.getElem?_eq_getElem (by omega)]
        rfl
      cases hv : encValue .String (us.getD m .Null) with
      | some bs =>
        have hs := hslot m hmlt
        rw [hv] at hs
        rw [hs, beBytesToNat_natToBeBytes (by
          have := hqfit m (by omega)
          norm_num
          omega)]
        rw [if_pos (by
          have := hqfit m (by omega)
          omega)]
        rw [hdropm]
        simp only [List.any_cons, hv, Option.isSome_some, Bool.true_or,
          if_true]
      | none =>
        have hs := hslot m hmlt
        rw [hv] at hs
        rw [hs, beBytesToNat_zero_zero]
        rw [if_neg (by omega)]
        have hstep : dstart + 2 * m + 2 = dstart + 2 * (m + 1) := by omega
        rw [hstep, ih (m + 1) (by omega) (by omega)]
        have htake : us.take (m + 1) = us.take m ++ [us.getD m .Null] := by
          rw [List.take_succ]
          congr 1
          rw [List.getD_eq_getElem?_getD, List.getElem?_eq_getElem (by omega)]
          rfl
        rw [hdropm]
        simp only [List.any_cons, hv, Option.isSome_none, Bool.false_or]
        rw [htake, paySpec_append, List.length_append]
        have hnil : paySpec [us.getD m .Null] = [] := by
          rw [paySpec, hv]
          rfl
        rw [hnil]
        rfl

theorem mem_of_getElem_eq_some {α : Type} {l : List α} {n : Nat} {a : α}
    (h : l[n]? = some a) : a ∈ l := by
  obtain ⟨hn, rfl⟩ := List.getElem?_eq_some.mp h
  exact List.getElem_mem hn

theorem drop_append_len {α : Type} (l₁ l₂ : List α) (n : Nat) :
    (l₁ ++ l₂).drop (l₁.length + n) = l₂.drop n := by
  rw [List.drop_append_eq_append_drop, List.drop_eq_nil_of_le (by omega)]
  simp

theorem get_data_layout (l : List (String × DataType)) (c : Columns)
    (vs : List Value) (hbuild : buildColumns l = .ok c)
    (hlen : vs.length = l.length)
    (hmatch : ∀ p ∈ (l.map Prod.snd).zip vs, valueMatches p.1 p.2 = true)
    (hsize : c.fixed_len +
      (payloadSection ((l.map Prod.snd).zip vs)).length ≤ 65535)
    (i : Nat) (hi : i < l.length) (v : Value) (hv : vs[i]? = some v) :
    c.get_data i
      (fixedSection ((l.map Prod.snd).zip vs) ++
       bitmaskBytes (nullBitsOf ((l.map Prod.snd).zip vs)) ++
       dirSection c.fixed_len ((l.map Prod.snd).zip vs) ++
       payloadSection ((l.map Prod.snd).zip vs)) = .ok v := by
  obtain ⟨h1, h2, h3, h4⟩ :=
    buildColumns_go_spec l Columns.new c hbuild (by rfl)
  simp only [Columns.new, List.map_nil, List.nil_append] at h1 h2 h4
  rw [Nat.zero_add] at h2 h4
  set ts := l.map Prod.snd with hts
  set tvs := ts.zip vs with htvs
  set SC := sizedCountT ts with hSC
  set UC := unsizedCountT ts with hUC
  have htslen : ts.length = l.length := by rw [hts, List.length_map]
  have htfst : tvs.map Prod.fst = ts := by
    rw [htvs]; exact List.map_fst_zip _ _ (by omega)
  have htsnd : tvs.map Prod.snd = vs := by
    rw [htvs]; exact List.map_snd_zip _ _ (by omega)
  have hfl : c.fixed_len = 8 * SC + (SC + 7) / 8 + 2 * UC := by
    simp [Columns.fixed_len, Columns.bitmask_size, h3, h2, h4]
    ring
  have hFlen : (fixedSection tvs).length = 8 * SC := by
    rw [fixedSection, fixedSpec_length, sizedVals_length, htfst]
  have hBlen : (bitmaskBytes (nullBitsOf tvs)).length = (SC + 7) / 8 := by
    rw [bitmaskBytes_length, nullBitsOf_length, htfst]
  have hDlen : (dirSection c.fixed_len tvs).length = 2 * UC := by
    rw [dirSection, dirSpec_length, unsizedVals_length, htfst]
  have hts_i : ts[i]? = some ts[i] := List.getElem?_eq_getElem (by omega)
  have htvi : tvs[i]? = some (ts[i], v) := by
    rw [htvs, List.getElem?_zip_eq_some]
    exact ⟨hts_i, hv⟩
  have hmatch_i : valueMatches ts[i] v = true :=
    hmatch (ts[i], v) (mem_of_getElem_eq_some htvi)
  have hsplit : ts = ts.take i ++ ts[i] :: ts.drop (i + 1) := by
    conv_lhs => rw [← List.take_append_drop i ts]
    rw [List.drop_eq_getElem_cons (by omega)]
  cases ht : ts[i] with
  | Integer =>
    rw [ht] at hts_i htvi hmatch_i hsplit
    set k := sizedCountT (ts.take i) with hk
    have hkSC : k < SC := by
      show sizedCountT (ts.take i) < sizedCountT ts
      conv_rhs => rw [hsplit]
      rw [sizedCountT_append, sizedCountT_cons]
      simp only [DataType.size, Option.isSome_some, if_true]
      omega
    have hentry : (entriesFrom 0 0 ts)[i]? =
        some ⟨DataType.Integer, 8 * k, k⟩ := by
      have h := entriesFrom_get_int ts i 0 0 hts_i
      rw [Nat.zero_add] at h
      exact h
    have hcol : ∃ nm, c.columns[i]? =
        some (nm, ⟨DataType.Integer, 8 * k, k⟩) := by
      have hmap := congrArg (fun L => L[i]?) h1
      simp only [List.getElem?_map] at hmap
      rw [hentry] at hmap
      cases hcc : c.columns[i]? with
      | none => rw [hcc] at hmap; simp at hmap
      | some p =>
        rw [hcc] at hmap
        simp only [Option.map_some', Option.some_inj] at hmap
        exact ⟨p.1, by rw [← hmap]⟩
    obtain ⟨nm, hcol⟩ := hcol
    have hsv : (sizedVals tvs)[k]? = some v := by
      have h := sizedVals_get tvs i v htvi
      rw [htfst, ← hk] at h
      exact h
    have hbitsk : (nullBitsOf tvs).getD k false =
        (encValue .Integer v).isSome := by
      rw [nullBitsOf]
      simp [List.getD_eq_getElem?_getD, List.getElem?_map, hsv]
    have hrowD : ((fixedSection tvs ++ bitmaskBytes (nullBitsOf tvs) ++
        dirSection c.fixed_len tvs ++ payloadSection tvs)).getD
          (8 * SC + k / 8) 0 =
        (bitmaskBytes (nullBitsOf tvs)).getD (k / 8) 0 := by
      rw [List.getD_append _ _ _ _ (by
          simp only [List.length_append, hFlen, hBlen, hDlen]
          omega),
        List.getD_append _ _ _ _ (by
          simp only [List.length_append, hFlen, hBlen]
          omega),
        List.getD_append_right _ _ _ _ (by rw [hFlen]; omega),
        hFlen, Nat.add_sub_cancel_left]
    have hread := bitmaskBytes_read (nullBitsOf tvs) k
      (by rw [nullBitsOf_length, htfst]; omega)
    rw [hbitsk] at hread
    simp only [Columns.get_data, hcol, DataType.size,
      ColumnEntry.bitmask_index, Columns.bitmask_start, h3, h2]
    rw [hrowD, hread]
    cases v with
    | Null =>
      rw [show encValue .Integer Value.Null = none from rfl]
      simp
    | TypedValue tc =>
      cases tc with
      | String s => simp [valueMatches] at hmatch_i
      | Integer n =>
        have hrange : i64Min ≤ n ∧ n ≤ i64Max := by
          simpa [valueMatches] using hmatch_i
        have henc : encValue .Integer (Value.TypedValue (.Integer n)) =
            some (intToBeBytes n) := by
          simp [encValue, DataType.resolve_value, TypeContents.cast,
            TypeContents.toInteger, TypeContents.encode]
        have hpos : 0 < 1 <<< (k % 8) := by
          rw [Nat.shiftLeft_eq, one_mul]
          positivity
        rw [henc]
        simp only [Option.isSome_some, if_true]
        rw [if_neg (by omega)]
        have hslice : ((fixedSection tvs ++ bitmaskBytes (nullBitsOf tvs) ++
            dirSection c.fixed_len tvs ++ payloadSection tvs).drop
              (8 * k)).take 8 = intToBeBytes n := by
          rw [List.append_assoc, List.append_assoc,
            slice_first _ _ _ _ (by rw [hFlen]; omega)]
          rw [fixedSection]
          have hblock := fixedSpec_block (sizedVals tvs) k
            (by rw [sizedVals_length, htfst]; omega)
          rw [hblock, show (sizedVals tvs).getD k Value.Null =
              Value.TypedValue (.Integer n) from by
            simp [List.getD_eq_getElem?_getD, hsv], henc]
        rw [hslice]
        simp only [DataType.decode, intToBeBytes_length, if_pos]
        rw [beBytesToInt_intToBeBytes (by
          simp only [i64Min, i64Max] at hrange
          omega) (by
          simp only [i64Min, i64Max] at hrange
          omega)]
        rfl
  | String =>
    rw [ht] at hts_i htvi hmatch_i hsplit
    set us := unsizedVals tvs with hus
    set j := unsizedCountT (ts.take i) with hj
    have hjUC : j < UC := by
      show unsizedCountT (ts.take i) < unsizedCountT ts
      conv_rhs => rw [hsplit]
      rw [unsizedCountT_append, unsizedCountT_cons]
      simp only [DataType.size, Option.isNone_none, if_true]
      omega
    have huslen : us.length = UC := by
      rw [hus, unsizedVals_length, htfst]
    have hentry : (entriesFrom 0 0 ts)[i]? =
        some ⟨DataType.String, 2 * j, 0⟩ := by
      have h := entriesFrom_get_str ts i 0 0 hts_i
      rw [Nat.zero_add] at h
      exact h
    have hcol : ∃ nm, c.columns[i]? =
        some (nm, ⟨DataType.String, 2 * j, 0⟩) := by
      have hmap := congrArg (fun L => L[i]?) h1
      simp only [List.getElem?_map] at hmap
      rw [hentry] at hmap
      cases hcc : c.columns[i]? with
      | none => rw [hcc] at hmap; simp at hmap
      | some p =>
        rw [hcc] at hmap
        simp only [Option.map_some', Option.some_inj] at hmap
        exact ⟨p.1, by rw [← hmap]⟩
    obtain ⟨nm, hcol⟩ := hcol
    have husv : us[j]? = some v := by
      have h := unsizedVals_get tvs i v htvi
      rw [htfst] at h
      exact h
    have husgd : us.getD j Value.Null = v := by
      simp [List.getD_eq_getElem?_getD, husv]
    have hdstart : c.directory_start = 8 * SC + (SC + 7) / 8 := by
      simp [Columns.directory_start, Columns.bitmask_size, h3, h2]
    have hPs : payloadSection tvs = paySpec us := by
      rw [payloadSection, ← hus]
    have hslot : ∀ m, m < UC →
        ((fixedSection tvs ++ bitmaskBytes (nullBitsOf tvs) ++
          dirSection c.fixed_len tvs ++ payloadSection tvs).drop
            (8 * SC + (SC + 7) / 8 + 2 * m)).take 2 =
        match encValue .String (us.getD m Value.Null) with
        | some _ =>
          natToBeBytes 2 (c.fixed_len + (paySpec (us.take m)).length)
        | none => [0, 0] := by
      intro m hm
      have hsl := slice_after
        (fixedSection tvs ++ bitmaskBytes (nullBitsOf tvs))
        (dirSection c.fixed_len tvs) (payloadSection tvs) (2 * m) 2
        (by rw [hDlen]; omega)
      rw [List.length_append, hFlen, hBlen] at hsl
      rw [hsl, dirSection, ← hus]
      exact dirSpec_slot us c.fixed_len m (by omega)
    have hq0pos : 0 < c.fixed_len := by rw [hfl]; omega
    have hfit : ∀ m, m ≤ UC →
        c.fixed_len + (paySpec (us.take m)).length < 65536 := by
      intro m hm
      have hle := paySpec_take_length_le us m
      have hp : c.fixed_len + (paySpec us).length ≤ 65535 := by
        rw [← hPs]; exact hsize
      omega
    simp only [Columns.get_data, hcol, DataType.size, hdstart]
    rw [hslot j hjUC, husgd]
    cases v with
    | Null =>
      rw [show encValue .String Value.Null = none from rfl]
      simp
    | TypedValue tc =>
      cases tc with
      | Integer m0 => simp [valueMatches] at hmatch_i
      | String s =>
        have henc : encValue .String (Value.TypedValue (.String s)) =
            some (utf8Encode s) := by
          simp [encValue, DataType.resolve_value, TypeContents.cast,
            TypeContents.toStringChars, TypeContents.encode]
        rw [henc]
        rw [if_neg (natToBeBytes_two_ne_dud _ (by omega) (by
          have := hfit j (by omega)
          omega))]
        have hlup : c.last_unsized_position =
            8 * SC + (SC + 7) / 8 + 2 * (UC - 1) := by
          simp only [Columns.last_unsized_position, Columns.directory_start,
            Columns.bitmask_size, h3, h2, h4]
          omega
        rw [hlup]
        simp only [get_unsized_data]
        rw [hslot j hjUC, husgd, henc,
          beBytesToNat_natToBeBytes (by
            have := hfit j (by omega)
            norm_num
            omega)]
        rw [findUnsizedEnd,
          show 8 * SC + (SC + 7) / 8 + 2 * j + 2 =
            8 * SC + (SC + 7) / 8 + 2 * (j + 1) from by omega]
        have hscan := findEnd_scan
          (fixedSection tvs ++ bitmaskBytes (nullBitsOf tvs) ++
            dirSection c.fixed_len tvs ++ payloadSection tvs)
          us c.fixed_len (8 * SC + (SC + 7) / 8) UC huslen (by omega)
          hq0pos hfit hslot
          (8 * SC + (SC + 7) / 8 + 2 * (UC - 1) + 2 -
            (8 * SC + (SC + 7) / 8 + 2 * (j + 1)))
          (j + 1) (by omega) (by omega)
        rw [hscan]
        have hjget : us[j] = Value.TypedValue (TypeContents.String s) := by
          have h := List.getElem?_eq_getElem
            (l := us) (n := j) (by omega)
          rw [husv] at h
          exact (Option.some_inj.mp h).symm
        have htakej1 : us.take (j + 1) =
            us.take j ++ [Value.TypedValue (TypeContents.String s)] := by
          rw [List.take_succ]
          congr 1
          rw [List.getElem?_eq_getElem (by omega), hjget]
          rfl
        have hpay1 : paySpec [Value.TypedValue (TypeContents.String s)] =
            utf8Encode s := by
          rw [paySpec, henc]
          simp [paySpec]
        have hpj1 : (paySpec (us.take (j + 1))).length =
            (paySpec (us.take j)).length + (utf8Encode s).length := by
          rw [htakej1, paySpec_append, List.length_append, hpay1]
        have hrowlen : (fixedSection tvs ++ bitmaskBytes (nullBitsOf tvs) ++
            dirSection c.fixed_len tvs ++ payloadSection tvs).length =
            c.fixed_len + (paySpec us).length := by
          simp only [List.length_append, hFlen, hBlen, hDlen, hPs]
          omega
        have harg : (if (us.drop (j + 1)).any
              (fun w => (encValue .String w).isSome) = true
            then c.fixed_len + (paySpec (us.take (j + 1))).length
            else (fixedSection tvs ++ bitmaskBytes (nullBitsOf tvs) ++
              dirSection c.fixed_len tvs ++ payloadSection tvs).length) =
            c.fixed_len + (paySpec (us.take j)).length +
              (utf8Encode s).length := by
          by_cases hany : (us.drop (j + 1)).any
              (fun w => (encValue .String w).isSome) = true
          · rw [if_pos hany, hpj1]
            omega
          · rw [if_neg hany, hrowlen]
            have hnil := paySpec_nil_of_all_null (us.drop (j + 1))
              (by
                cases hb : (us.drop (j + 1)).any
                    (fun w => (encValue .String w).isSome)
                · rfl
                · exact absurd hb hany)
            have hsplit2 : paySpec us =
                paySpec (us.take (j + 1)) ++ paySpec (us.drop (j + 1)) := by
              rw [← paySpec_append, List.take_append_drop]
            rw [hsplit2, hnil, List.append_nil, hpj1]
            omega
        rw [harg, Nat.add_sub_cancel_left]
        have husplit : us = us.take j ++
            Value.TypedValue (TypeContents.String s) :: us.drop (j + 1) := by
          conv_lhs => rw [← List.take_append_drop j us]
          congr 1
          rw [List.drop_eq_getElem_cons (by omega), hjget]
        have hPsplit : paySpec us = paySpec (us.take j) ++
            (utf8Encode s ++ paySpec (us.drop (j + 1))) := by
          conv_lhs => rw [husplit]
          rw [show (Value.TypedValue (TypeContents.String s) ::
              us.drop (j + 1)) =
              [Value.TypedValue (TypeContents.String s)] ++ us.drop (j + 1)
              from rfl]
          rw [paySpec_append, paySpec_append, hpay1]
        have hslice : ((fixedSection tvs ++ bitmaskBytes (nullBitsOf tvs) ++
            dirSection c.fixed_len tvs ++ payloadSection tvs).drop
              (c.fixed_len + (paySpec (us.take j)).length)).take
                (utf8Encode s).length = utf8Encode s := by
          have hprelen : (fixedSection tvs ++ bitmaskBytes (nullBitsOf tvs) ++
              dirSection c.fixed_len tvs).length = c.fixed_len := by
            simp only [List.length_append, hFlen, hBlen, hDlen]
            omega
          rw [show c.fixed_len + (paySpec (us.take j)).length =
              (fixedSection tvs ++ bitmaskBytes (nullBitsOf tvs) ++
                dirSection c.fixed_len tvs).length +
                (paySpec (us.take j)).length from by rw [hprelen],
            drop_append_len, hPs, hPsplit, List.drop_left, List.take_left]
        rw [hslice]
        simp only [DataType.decode, utf8Decode_utf8Encode]
        rfl

/-- C1: Row codec round-trip: for every schema `S` and every value list
`R` matching `S` (each value `Null` or of its column's declared type
with integers in the `i64` range, every `String` at most 65,000 encoded
bytes, total encoded size at most 65,535 bytes), `generate_row` succeeds
and decoding every column of the produced byte string with `get_data`
yields exactly `R`, i.e. `decode(encode(R)) = R`. -/
theorem codec_round_trip (l : List (String × DataType)) (c : Columns)
    (vs : List Value) (hbuild : buildColumns l = .ok c)
    (hlen : vs.length = l.length)
    (hmatch : ∀ p ∈ (l.map Prod.snd).zip vs, valueMatches p.1 p.2 = true)
    (hstr : ∀ p ∈ (l.map Prod.snd).zip vs, stringLenOk p.2 = true)
    (hsize : c.fixed_len +
      (payloadSection ((l.map Prod.snd).zip vs)).length ≤ 65535) :
    ∃ row, c.generate_row vs = .ok row ∧
      ∀ i, i < l.length →
        c.get_data i row = .ok (vs.getD i Value.Null) := by
  refine ⟨_, generate_row_layout l c vs hbuild hlen hsize, ?_⟩
  intro i hi
  have hiv : i < vs.length := by omega
  have hv : vs[i]? = some (vs.getD i Value.Null) := by
    rw [List.getElem?_eq_getElem hiv]
    simp [List.getD_eq_getElem?_getD, List.getElem?_eq_getElem hiv]
  exact get_data_layout l c vs hbuild hlen hmatch hsize i hi _ hv

theorem codec_round_trip_witness :
    ∃ row, demoColumns.generate_row demoValues = .ok row ∧
      ∀ i, i < demoSchema.length →
        demoColumns.get_data i row = .ok (demoValues.getD i Value.Null) :=
  codec_round_trip demoSchema demoColumns demoValues (by decide) (by decide)
    (by decide) (by decide) (by decide)

/-- C8 counterexample: for the schema `(id Integer, name String)` and the
row `(25, "User")`, `generate_row` places the null bitmap byte `1` at
offset `sized_len = 8`, before the directory slot `[0, 11]`, so the
produced byte string differs from the claimed fixed–directory–bitmap
–payloads order at offset 8. -/
theorem c8_layout_counterexample :
    demoColumns.generate_row demoValues =
      .ok [0, 0, 0, 0, 0, 0, 0, 25, 1, 0, 11, 85, 115, 101, 114] ∧
    claimedDirFirstLayout demoColumns.fixed_len
        ((demoSchema.map Prod.snd).zip demoValues) =
      [0, 0, 0, 0, 0, 0, 0, 25, 0, 11, 1, 85, 115, 101, 114] ∧
    ([0, 0, 0, 0, 0, 0, 0, 25, 1, 0, 11, 85, 115, 101, 114] : List Nat) ≠
      [0, 0, 0, 0, 0, 0, 0, 25, 0, 11, 1, 85, 115, 101, 114] := by
  decide

/-- C8 (amended): the encoded byte string consists of the fixed-size
section, then the null bitmap for fixed-size columns, then the directory
of variable-size columns, then the variable payloads; the bitmap begins
at offset `sized_len` and the directory begins after the bitmap, at
`sized_len + bitmask_size`. -/
theorem row_layout_bitmap_then_directory (l : List (String × DataType))
    (c : Columns) (vs : List Value) (hbuild : buildColumns l = .ok c)
    (hlen : vs.length = l.length)
    (hsize : c.fixed_len +
      (payloadSection ((l.map Prod.snd).zip vs)).length ≤ 65535) :
    c.generate_row vs = .ok (
      fixedSection ((l.map Prod.snd).zip vs) ++
      bitmaskBytes (nullBitsOf ((l.map Prod.snd).zip vs)) ++
      dirSection c.fixed_len ((l.map Prod.snd).zip vs) ++
      payloadSection ((l.map Prod.snd).zip vs)) ∧
    c.bitmask_start = c.sized_len ∧
    c.directory_start = c.sized_len + c.bitmask_size :=
  ⟨generate_row_layout l c vs hbuild hlen hsize, rfl, rfl⟩

theorem row_layout_bitmap_then_directory_witness :
    demoColumns.generate_row demoValues = .ok (
      fixedSection ((demoSchema.map Prod.snd).zip demoValues) ++
      bitmaskBytes (nullBitsOf ((demoSchema.map Prod.snd).zip demoValues)) ++
      dirSection demoColumns.fixed_len
        ((demoSchema.map Prod.snd).zip demoValues) ++
      payloadSection ((demoSchema.map Prod.snd).zip demoValues)) ∧
    demoColumns.bitmask_start = demoColumns.sized_len ∧
    demoColumns.directory_start =
      demoColumns.sized_len + demoColumns.bitmask_size :=
  row_layout_bitmap_then_directory demoSchema demoColumns demoValues
    (by decide) (by decide) (by decide)

/-- C5: the spec claims the Kleene three-valued tables, but in
`TruthValue::and` the source's `Unknown` match arms precede the final
`False` arm, so `Unknown AND False` and `False AND Unknown` evaluate to
`Unknown` instead of the claimed `False`; at the `Value` level
`NULL AND FALSE` is therefore `Null` rather than false.  Every other
`and` entry and the whole `or` table do follow Kleene, which shows the
`and` arm order is the one deviation. -/
theorem truth_and_unknown_false_deviates_from_kleene :
    TruthValue.and .Unknown .False = .Unknown ∧
    TruthValue.and .False .Unknown = .Unknown ∧
    TruthValue.Unknown ≠ TruthValue.False ∧
    Value.and Value.Null (.TypedValue (.Integer 0)) = Value.Null ∧
    TruthValue.and .True .True = .True ∧
    TruthValue.and .True .False = .False ∧
    TruthValue.and .False .True = .False ∧
    TruthValue.and .False .False = .False ∧
    TruthValue.and .True .Unknown = .Unknown ∧
    TruthValue.and .Unknown .True = .Unknown ∧
    TruthValue.and .Unknown .Unknown = .Unknown ∧
    TruthValue.or .False .False = .False ∧
    TruthValue.or .True .True = .True ∧
    TruthValue.or .False .True = .True ∧
    TruthValue.or .Unknown .True = .True ∧
    TruthValue.or .True .False = .True ∧
    TruthValue.or .True .Unknown = .True ∧
    TruthValue.or .Unknown .False = .Unknown ∧
    TruthValue.or .False .Unknown = .Unknown ∧
    TruthValue.or .Unknown .Unknown = .Unknown := by
  decide

/-- C9: `string_to_int` skips leading whitespace, accepts one optional
leading minus sign, reads the following contiguous ASCII digits,
saturates to `i64::MAX` (resp. `i64::MIN` when negative) on overflow,
and yields 0 when no digit prefix exists — witnessed by the claim's
enumerated examples together with the general leading-blank law. -/
theorem string_to_int_claimed_examples :
    string_to_int ['0'] = 0 ∧
    string_to_int ['-', '1'] = -1 ∧
    string_to_int ['0', '1', '0'] = 10 ∧
    string_to_int ['-', '0', '1', '0'] = -10 ∧
    string_to_int ['h', 'e', 'l', 'l', 'o'] = 0 ∧
    string_to_int ['1', '0', 'h', 'e', 'l', 'l', 'o'] = 10 ∧
    string_to_int ['-', '1', '0', 'h', 'e', 'l', 'l', 'o'] = -10 ∧
    string_to_int [] = 0 ∧
    string_to_int ['1', '2', '3', '4', '5', '6', '7', '8', '9', '0',
      '1', '2', '3', '4', '5', '6', '7', '8', '9', '0'] = i64Max ∧
    string_to_int ['-', '1', '2', '3', '4', '5', '6', '7', '8', '9', '0',
      '1', '2', '3', '4', '5', '6', '7', '8', '9', '0'] = i64Min ∧
    string_to_int [' ', ' ', '4', '2'] = 42 ∧
    (∀ s, string_to_int (' ' :: s) = string_to_int s) := by
  refine ⟨by decide, by decide, by decide, by decide, by decide, by decide,
    by decide, by decide, by decide, by decide, by decide, ?_⟩
  intro s
  simp [string_to_int, List.dropWhile_cons,
    show rustIsWhitespace ' ' = true from by decide]

/-- C6: the claim says a `Null` operand makes arithmetic yield `Null`,
but `cast(&Type::Integer)` preserves `Null` and `assume_integer` then
fails with `Error::Internal` — documented in `error.rs` as an error
caused by a bug in the database system — so `NULL + 1` (and every other
arithmetic operator on `Null`) evaluates to an internal error, not to
`Null`.  Division and modulus by a zero divisor do yield `Null` as
claimed. -/
theorem null_arithmetic_is_internal_error :
    evaluate_expression []
        (.BinaryOp (.Value Value.Null) (.Mathematical .Add) (intExpr 1)) =
      .error (.internal "Assumed integer") ∧
    evaluate_expression []
        (.BinaryOp (intExpr 1) (.Mathematical .Add) (.Value Value.Null)) =
      .error (.internal "Assumed integer") ∧
    evaluate_expression []
        (.BinaryOp (.Value Value.Null) (.Mathematical .Divide)
          (intExpr 3)) = .error (.internal "Assumed integer") ∧
    (∀ m, evaluate_expression []
        (.BinaryOp (.Value Value.Null) (.Mathematical m) (intExpr 1)) ≠
      .ok Value.Null) ∧
    evaluate_expression []
        (.BinaryOp (intExpr 10) (.Mathematical .Divide) (intExpr 0)) =
      .ok Value.Null ∧
    evaluate_expression []
        (.BinaryOp (intExpr 10) (.Mathematical .Modulus) (intExpr 0)) =
      .ok Value.Null := by
  refine ⟨by decide, by decide, by decide, ?_, by decide, by decide⟩
  intro m
  cases m <;> decide

/-- C10: `Add`, `Subtract` and `Multiply` behave as release-mode
wrap-around `i64` operations — `i64::MAX + 1` evaluates to `i64::MIN`
rather than saturating, yielding `Null`, or erroring — while `Divide`
and `Modulus` use checked operations: a zero divisor and the overflowing
`i64::MIN / -1` yield `Null`, and division truncates toward zero. -/
theorem add_wraps_while_divide_is_checked :
    evaluate_expression []
        (.BinaryOp (intExpr i64Max) (.Mathematical .Add) (intExpr 1)) =
      .ok (.TypedValue (.Integer i64Min)) ∧
    evaluate_expression []
        (.BinaryOp (intExpr i64Min) (.Mathematical .Subtract)
          (intExpr 1)) = .ok (.TypedValue (.Integer i64Max)) ∧
    evaluate_expression []
        (.BinaryOp (intExpr i64Max) (.Mathematical .Multiply)
          (intExpr 2)) = .ok (.TypedValue (.Integer (-2))) ∧
    evaluate_expression []
        (.BinaryOp (intExpr 5) (.Mathematical .Divide) (intExpr 0)) =
      .ok Value.Null ∧
    evaluate_expression []
        (.BinaryOp (intExpr 5) (.Mathematical .Modulus) (intExpr 0)) =
      .ok Value.Null ∧
    evaluate_expression []
        (.BinaryOp (intExpr i64Min) (.Mathematical .Divide)
          (intExpr (-1))) = .ok Value.Null ∧
    evaluate_expression []
        (.BinaryOp (intExpr i64Min) (.Mathematical .Modulus)
          (intExpr (-1))) = .ok Value.Null ∧
    evaluate_expression []
        (.BinaryOp (intExpr (-7)) (.Mathematical .Divide) (intExpr 2)) =
      .ok (.TypedValue (.Integer (-3))) ∧
    evaluate_expression []
        (.BinaryOp (intExpr (-7)) (.Mathematical .Modulus) (intExpr 2)) =
      .ok (.TypedValue (.Integer (-1))) := by
  decide

/-- C7: the claim (like the `nulls_first` flag's own name, set from the
SQL `NULLS FIRST` keyword) says a Null collates greater than every
non-Null value by default and `NULLS FIRST` makes it collate less, but
the comparator's Null arms are inverted: with the default
`nulls_first = false` a Null row compares `Less` and sorts before every
non-Null row, and under `NULLS FIRST` it compares `Greater` and sorts
last.  Sorting the rows `[5], [NULL]` ascending on the single column
yields `[NULL], [5]` by default and `[5], [NULL]` under `NULLS FIRST` —
the opposite of the claimed collation on both counts. -/
theorem order_by_null_collation_is_inverted :
    parse_order_by ⟨"c", none, none⟩ = ⟨"c", .Ascending, false⟩ ∧
    parse_order_by ⟨"c", none, some true⟩ = ⟨"c", .Ascending, true⟩ ∧
    Relation.sort ⟨["c"], [[.TypedValue (.Integer 5)], [Value.Null]]⟩
        [⟨"c", .Ascending, false⟩] =
      .ok ⟨["c"], [[Value.Null], [.TypedValue (.Integer 5)]]⟩ ∧
    Relation.sort ⟨["c"], [[.TypedValue (.Integer 5)], [Value.Null]]⟩
        [⟨"c", .Ascending, true⟩] =
      .ok ⟨["c"], [[.TypedValue (.Integer 5)], [Value.Null]]⟩ := by
  decide

theorem fkRowMatches_eq (t : ForeignTableView) (this_row frow : List Value) :
    ∀ pairs : List (Nat × String),
      (∀ p ∈ pairs,
        (t.column_names.findIdx? (fun s => s = p.2)).isSome = true) →
      fkRowMatches t this_row frow pairs =
        .ok (pairs.all (fkPairHolds t this_row frow)) := by
  intro pairs
  induction pairs with
  | nil => intro h; rfl
  | cons p rest ih =>
    intro h
    obtain ⟨tc, fc⟩ := p
    have hh := h _ (List.mem_cons_self _ _)
    cases hidx : t.column_names.findIdx? (fun s => s = fc) with
    | none => rw [hidx] at hh; simp at hh
    | some i =>
      simp only [fkRowMatches, ftGetValue, hidx, Bind.bind, Except.bind]
      by_cases heq : this_row.getD tc Value.Null = frow.getD i Value.Null
      · rw [if_neg (not_not_intro heq),
          ih (fun q hq => h q (List.mem_cons_of_mem _ hq))]
        have hph : fkPairHolds t this_row frow (tc, fc) = true := by
          simp [fkPairHolds, hidx]
          simpa [List.getD_eq_getElem?_getD] using heq
        rw [List.all_cons, hph, Bool.true_and]
      · rw [if_pos heq]
        have hph : fkPairHolds t this_row frow (tc, fc) = false := by
          simp [fkPairHolds, hidx]
          simpa [List.getD_eq_getElem?_getD] using heq
        rw [List.all_cons, hph, Bool.false_and]

theorem checkRowContainsAux_iff (name : String) (t : ForeignTableView)
    (this_row : List Value) (pairs : List (Nat × String))
    (hcols : ∀ p ∈ pairs,
      (t.column_names.findIdx? (fun s => s = p.2)).isSome = true) :
    ∀ rows : List (List Value),
      (checkRowContainsAux name t this_row pairs rows = .ok () ↔
        ∃ frow ∈ rows, pairs.all (fkPairHolds t this_row frow) = true) := by
  intro rows
  induction rows with
  | nil => simp [checkRowContainsAux]
  | cons frow rest ih =>
    simp only [checkRowContainsAux,
      fkRowMatches_eq t this_row frow pairs hcols, Bind.bind, Except.bind]
    by_cases hm : pairs.all (fkPairHolds t this_row frow) = true
    · rw [if_pos hm]
      exact iff_of_true rfl ⟨frow, List.mem_cons_self _ _, hm⟩
    · rw [if_neg hm, ih]
      constructor
      · rintro ⟨f, hf, hp⟩
        exact ⟨f, List.mem_cons_of_mem _ hf, hp⟩
      · rintro ⟨f, hf, hp⟩
        rcases List.mem_cons.mp hf with h1 | h1
        · subst h1
          exact absurd hp hm
        · exact ⟨f, h1, hp⟩

/-- C3 counterexample: the outgoing foreign-key check uses the derived
structural equality, so a child row whose foreign-key column is `Null`
is not accepted vacuously: against an empty parent table, and against a
parent holding only the value `7`, the check fails with
`ForeignKeyConstraintFailed`; it succeeds only when some parent row
itself holds `Null` in the referred column. -/
theorem null_fk_child_rejected_despite_match_simple :
    check_row_contains "fk" [0] ⟨["id"], []⟩ ["id"] [Value.Null] =
      .error (.foreignKeyConstraintFailed "fk") ∧
    check_row_contains "fk" [0] ⟨["id"], [[.TypedValue (.Integer 7)]]⟩
        ["id"] [Value.Null] =
      .error (.foreignKeyConstraintFailed "fk") ∧
    check_row_contains "fk" [0] ⟨["id"], [[Value.Null]]⟩ ["id"]
        [Value.Null] = .ok () := by
  decide

/-- C3 (amended): the outgoing foreign-key check accepts a candidate
child row if and only if some parent row agrees with it structurally on
every foreign-key column pair — `Null` equal only to `Null`, never a
wildcard — so a `Null` child column gives no MATCH SIMPLE pass and an
empty parent table rejects every child row. -/
theorem check_row_contains_is_structural_match (name : String)
    (this_columns : List Nat) (t : ForeignTableView)
    (foreign_columns : List String) (this_row : List Value)
    (hcols : ∀ p ∈ this_columns.zip foreign_columns,
      (t.column_names.findIdx? (fun s => s = p.2)).isSome = true) :
    check_row_contains name this_columns t foreign_columns this_row =
        .ok () ↔
      ∃ frow ∈ t.rows,
        (this_columns.zip foreign_columns).all
          (fkPairHolds t this_row frow) = true :=
  checkRowContainsAux_iff name t this_row
    (this_columns.zip foreign_columns) hcols t.rows

theorem check_row_contains_is_structural_match_witness :
    check_row_contains "fk" [0] ⟨["id"], [[.TypedValue (.Integer 1)]]⟩
        ["id"] [.TypedValue (.Integer 1)] = .ok () ↔
      ∃ frow ∈ [[Value.TypedValue (TypeContents.Integer 1)]],
        (([(0, "id")] : List (Nat × String)).all
          (fkPairHolds ⟨["id"], [[.TypedValue (.Integer 1)]]⟩
            [.TypedValue (.Integer 1)] frow)) = true :=
  check_row_contains_is_structural_match "fk" [0]
    ⟨["id"], [[.TypedValue (.Integer 1)]]⟩ ["id"]
    [.TypedValue (.Integer 1)] (by decide)

/-- C4: `ON UPDATE CASCADE` never rewrites the child rows — the
`Cascade`/`Update` arm of `check_parent_rows` builds the copied row but
never calls `update_row`, so after updating the parent value `'x'` to
`'y'` the matching child row still holds `'x'`, not the claimed copied
value `'y'`.  The row the arm builds (and drops) is exactly the claimed
rewrite, and the neighbouring arms do apply their effects: `SET NULL`
writes `Null` into the child and `ON DELETE CASCADE` deletes the child
row. -/
theorem on_update_cascade_never_writes_child :
    check_parent_rows "fk" [.TypedValue (.String ['x'])] [0] demoChild []
        ["a"] .Cascade .NoAction (.Update [.TypedValue (.String ['y'])]) =
      .ok [[.TypedValue (.String ['x'])]] ∧
    cascadeUpdateRowAux [.TypedValue (.String ['y'])]
        [.TypedValue (.String ['x'])] 0 ["a"] [(0, "a")] =
      [.TypedValue (.String ['y'])] ∧
    ([[Value.TypedValue (TypeContents.String ['x'])]] :
        List (List Value)) ≠ [[.TypedValue (.String ['y'])]] ∧
    check_parent_rows "fk" [.TypedValue (.String ['x'])] [0] demoChild []
        ["a"] .SetNull .NoAction (.Update [.TypedValue (.String ['y'])]) =
      .ok [[Value.Null]] ∧
    check_parent_rows "fk" [.TypedValue (.String ['x'])] [0] demoChild []
        ["a"] .NoAction .Cascade .Delete = .ok [] := by
  decide

/-- C2 counterexample: inserting the two rows `(1)` and `(NULL)` into a
table whose single column is `NOT NULL` fails on the second row, yet the
statement leaves the first row persisted — the failing multi-row INSERT
does not leave the database unchanged. -/
theorem failed_insert_persists_first_row :
    executeInsertLoop demoTable
        [[.TypedValue (.Integer 1)], [Value.Null]] =
      (.error (.nullConstraintFailed "a"),
        ⟨["a"], [], [(0, none)], [], [[.TypedValue (.Integer 1)]]⟩) ∧
    ([[Value.TypedValue (TypeContents.Integer 1)]] :
        List (List Value)) ≠ [] := by
  decide

theorem insert_values_ok_rows {t t1 : TableState} {row : List Value}
    (h : t.insert_values row = .ok t1) :
    t1.rows = t.rows ++ [row] := by
  simp only [TableState.insert_values, Bind.bind, Except.bind] at h
  cases hc : t.check_row row with
  | error e => rw [hc] at h; simp at h
  | ok u =>
    rw [hc] at h
    simp only [Except.ok.injEq] at h
    rw [← h]

/-- C2 (amended): a multi-row INSERT is not atomic; it persists exactly
the rows that were individually accepted before the first failure.
There is a prefix length `k` such that the final table holds the first
`k` rows appended to the old rows; on success `k` is the whole
statement, and on failure row `k` is the one that was rejected against
the already-extended table. -/
theorem execute_insert_persists_accepted_prefix :
    ∀ (rows : List (List Value)) (t : TableState),
      ∃ k ≤ rows.length,
        (executeInsertLoop t rows).2.rows = t.rows ++ rows.take k ∧
        ((executeInsertLoop t rows).1 = .ok () → k = rows.length) ∧
        (∀ e, (executeInsertLoop t rows).1 = .error e →
          k < rows.length ∧
          (executeInsertLoop t rows).2.insert_values (rows.getD k []) =
            .error e) := by
  intro rows
  induction rows with
  | nil =>
    intro t
    exact ⟨0, by omega, by simp [executeInsertLoop], fun _ => rfl,
      fun e he => by simp [executeInsertLoop] at he⟩
  | cons row rest ih =>
    intro t
    cases hins : t.insert_values row with
    | ok t1 =>
      obtain ⟨k, hk, hrows, hok, herr⟩ := ih t1
      refine ⟨k + 1, by simpa using hk, ?_, ?_, ?_⟩
      · simp only [executeInsertLoop, hins, List.take_succ_cons]
        rw [hrows, insert_values_ok_rows hins, List.append_assoc]
        rfl
      · intro h
        simp only [executeInsertLoop, hins] at h
        simp [hok h]
      · intro e he
        simp only [executeInsertLoop, hins] at he
        obtain ⟨h1, h2⟩ := herr e he
        refine ⟨by simpa using h1, ?_⟩
        simp only [executeInsertLoop, hins, List.getD_cons_succ]
        exact h2
    | error e0 =>
      refine ⟨0, by simp, ?_, ?_, ?_⟩
      · simp [executeInsertLoop, hins]
      · intro h
        simp [executeInsertLoop, hins] at h
      · intro e he
        simp only [executeInsertLoop, hins] at he
        simp only [Except.error.injEq] at he
        subst he
        refine ⟨by simp, ?_⟩
        simp only [executeInsertLoop, hins, List.getD_cons_zero]
end StardustDb

